import Mathlib

/-!
# Verification of the bakup core against its specification

Shallow embedding of the bakup/bakpak core subsystems:

* the ChaCha20 + BLAKE3 AEAD (`crates/bakpak/src/chacha20_blake3.rs`),
* the archive stream writer (`crates/bakpak/src/stream_writer.rs`),
* the archive header builder (`crates/bakpak/src/encryptor.rs`),
* the AES-Gear chunker state machine (`src/chunking/chunker_state.rs`)
  with its streaming adapter (`crates/bakup/src/chunking/stream_chunker.rs`),
* the pack writer (`src/pack/pack_writer.rs`).

Bytes are modelled as `Nat` (each `< 256` where it matters), byte strings as
`List Nat`, machine integers as `Nat` with explicit `% 2^w` at the points the
Rust code wraps or truncates.  External cryptographic primitives (BLAKE3,
ChaCha20 keystream, Ed25519 signing, X25519, AES) are abstract function
parameters bundled with the output-length facts that their Rust types
guarantee (`blake3::Hash` is 32 bytes, an Ed25519 signature is 64 bytes,
a stream cipher keystream has the length of the buffer it is applied to).
-/

namespace Bakup

/-- Little-endian byte encoding of `n` on `k` bytes (models `to_le_bytes`
after the value has been truncated to the relevant integer width). -/
def leBytes (k : Nat) (n : Nat) : List Nat :=
  (List.range k).map (fun i => n / 256 ^ i % 256)

theorem leBytes_length (k n : Nat) : (leBytes k n).length = k := by
  simp [leBytes]

/-- Pointwise xor of two byte strings, truncated to the shorter one
(models `apply_keystream`, which xors a keystream of exactly the buffer's
length into the buffer). -/
def xorBytes (a b : List Nat) : List Nat :=
  List.zipWith (fun x y => Nat.xor x y) a b

theorem xorBytes_length (a b : List Nat) :
    (xorBytes a b).length = min a.length b.length := by
  simp [xorBytes]

theorem xorBytes_xorBytes_cancel :
    ∀ (a b : List Nat), b.length = a.length → xorBytes (xorBytes a b) b = a
  | [], [], _ => rfl
  | [], _ :: _, h => by simp at h
  | _ :: _, [], h => by simp at h
  | x :: a, y :: b, h => by
    simp only [xorBytes, List.zipWith_cons_cons]
    have ih := xorBytes_xorBytes_cancel a b (by simpa using h)
    simp only [xorBytes] at ih
    rw [ih]
    have hx : Nat.xor (Nat.xor x y) y = x := by
      show x ^^^ y ^^^ y = x
      rw [Nat.xor_assoc, Nat.xor_self, Nat.xor_zero]
    rw [hx]

/-!
## The external primitives

`Prims` collects the cryptographic primitives the core calls into, together
with the output-length invariants that the Rust types of those primitives
guarantee.
-/

/-- Abstract external primitives.

* `deriveKey` models `blake3::derive_key(context, ikm)`;
* `keyedHash` models keyed BLAKE3 (`blake3::Hasher::new_keyed` /
  `blake3::keyed_hash`): 32-byte output by type;
* `keystream` models the ChaCha20 keystream for `(key, nonce)` truncated to a
  requested length (`apply_keystream` xors it in place);
* `plainHash` models `blake3::hash`: 32-byte output by type;
* `sign` models `ed25519_dalek::SigningKey::sign` for the stream writer's
  signing key: 64-byte signature by type;
* `poly1305Enc` models `ChaCha20Poly1305::encrypt` (used only by the header
  builder): ciphertext-plus-16-byte-tag output by the AEAD contract. -/
structure Prims where
  deriveKey : String → List Nat → List Nat
  keyedHash : List Nat → List Nat → List Nat
  keystream : List Nat → List Nat → Nat → List Nat
  plainHash : List Nat → List Nat
  sign : List Nat → List Nat
  poly1305Enc : List Nat → List Nat → List Nat
  keyedHash_length : ∀ k m, (keyedHash k m).length = 32
  keystream_length : ∀ k n len, (keystream k n len).length = len
  plainHash_length : ∀ m, (plainHash m).length = 32
  sign_length : ∀ m, (sign m).length = 64
  poly1305Enc_length : ∀ k m, (poly1305Enc k m).length = m.length + 16

/-- A concrete instantiation of the primitives (used for evaluating the
embedding on concrete inputs). -/
def trivPrims : Prims where
  deriveKey := fun _ _ => List.replicate 32 0
  keyedHash := fun _ _ => List.replicate 32 0
  keystream := fun _ _ len => List.replicate len 0
  plainHash := fun _ => List.replicate 32 0
  sign := fun _ => List.replicate 64 0
  poly1305Enc := fun _ m => List.replicate (m.length + 16) 0
  keyedHash_length := by intro k m; simp
  keystream_length := by intro k n len; simp
  plainHash_length := by intro m; simp
  sign_length := by intro m; simp
  poly1305Enc_length := by intro k m; simp

/-!
## §4.G  Custom AEAD: ChaCha20 + BLAKE3 keyed MAC (`chacha20_blake3.rs`)
-/

/-- `BLOCK_SIZE`: size of a ChaCha20 block in bytes. -/
def BLOCK_SIZE : Nat := 64

/-- `MAX_BLOCKS = core::u32::MAX as usize = 2^32 - 1`. -/
def MAX_BLOCKS : Nat := 2 ^ 32 - 1

/-- `ChaChaBlake3::compute_tag`: keyed BLAKE3 over
`nonce || ad || ciphertext || LE64(|ad|) || LE64(|ciphertext|)` under the
key derived from the AEAD key with context `"BLAKE3-256.KeyedHash()"`.
Returns `none` when a length does not fit in `u64` (the `u64::try_from`
calls in the source). -/
def computeTag (p : Prims) (key nonce ad ct : List Nat) : Option (List Nat) :=
  if ad.length < 2 ^ 64 then
    if ct.length < 2 ^ 64 then
      some (p.keyedHash (p.deriveKey "BLAKE3-256.KeyedHash()" key)
        (nonce ++ ad ++ ct ++ leBytes 8 ad.length ++ leBytes 8 ct.length))
    else none
  else none

/-- `ChaChaBlake3::encrypt_in_place_detached`: reject when
`buffer.len() / 64 >= MAX_BLOCKS`, otherwise xor the ChaCha20 keystream
(under the derived encryption key) into the buffer and MAC the ciphertext.
Returns the ciphertext and the 32-byte tag. -/
def chachaEncrypt (p : Prims) (key nonce ad buffer : List Nat) :
    Except Unit (List Nat × List Nat) :=
  if MAX_BLOCKS ≤ buffer.length / BLOCK_SIZE then .error ()
  else
    match computeTag p key nonce ad
      (xorBytes buffer (p.keystream (p.deriveKey "ChaCha20.Encrypt()" key)
        nonce buffer.length)) with
    | none => .error ()
    | some tag =>
      .ok (xorBytes buffer (p.keystream (p.deriveKey "ChaCha20.Encrypt()" key)
        nonce buffer.length), tag)

/-- `ChaChaBlake3::decrypt_in_place_detached`: reject on the same length
bound, recompute the tag over the ciphertext, compare, and only on equality
xor the keystream back.  Returns the recovered plaintext. -/
def chachaDecrypt (p : Prims) (key nonce ad buffer tag : List Nat) :
    Except Unit (List Nat) :=
  if MAX_BLOCKS ≤ buffer.length / BLOCK_SIZE then .error ()
  else
    match computeTag p key nonce ad buffer with
    | none => .error ()
    | some computedTag =>
      if computedTag = tag then
        .ok (xorBytes buffer
          (p.keystream (p.deriveKey "ChaCha20.Encrypt()" key) nonce
            buffer.length))
      else .error ()

/-!
## §4.I  Archive stream writer (`stream_writer.rs`)
-/

/-- `SEGMENT_SIZE = 64 * 1024`. -/
def SEGMENT_SIZE : Nat := 64 * 1024

/-- `SIGNATURE_DOMAIN = b"bakpak segment\0"` (15 bytes). -/
def SIGNATURE_DOMAIN : List Nat :=
  [98, 97, 107, 112, 97, 107, 32, 115, 101, 103, 109, 101, 110, 116, 0]

/-- `StreamState`: the plaintext bytes buffered for the current segment and
the 0-based segment counter.  (The keys live in the abstract primitives.) -/
structure StreamState where
  segment : List Nat
  segmentCount : Nat

/-- `StreamState::nonce(counter, last_segment)`:
`n = counter | (last as u64) << 63` as a `u64`, laid out as
`[0,0,0,0] ++ LE64(n)`. -/
def nonceBytes (counter : Nat) (lastSegment : Bool) : List Nat :=
  let n := (counter % 2 ^ 64) ||| (if lastSegment then 2 ^ 63 else 0)
  [0, 0, 0, 0] ++ leBytes 8 n

/-- The last-segment flag of a 12-byte nonce: the high bit of its final
byte (the top bit of the LE64 counter field). -/
def nonceLastFlag (nonce : List Nat) : Bool :=
  decide (128 ≤ nonce.getD 11 0)

/-- `StreamState::pad_segment`: with `to_pad = SEGMENT_SIZE - len`, either
append `to_pad - 1` zeros and the byte `to_pad` (when `to_pad` fits in a
`u8`), or append `to_pad - 3` zeros, `LE16(to_pad as u16)` and a zero byte.
`to_pad as u16` truncates, hence the `% 2 ^ 16`. -/
def padSegment (segment : List Nat) : List Nat :=
  let toPad := SEGMENT_SIZE - segment.length
  if toPad ≤ 255 then
    segment ++ List.replicate (toPad - 1) 0 ++ [toPad]
  else
    segment ++ List.replicate (toPad - 3) 0 ++ leBytes 2 (toPad % 2 ^ 16) ++ [0]

/-- Decoder for the last-segment padding, as §4.I of the spec states it.

Modelled from the spec: the repository contains no reader/decoder (the spec
constrains only the encoder), so the decoding rule is taken from the spec's
words: a non-zero final byte is itself the pad length (short form); a zero
final byte means the pad length is the little-endian `u16` in the two
preceding bytes (long form). -/
def decodePad (buffer : List Nat) : Nat :=
  match buffer.reverse with
  | [] => 0
  | t :: rest =>
    if t ≠ 0 then t
    else
      match rest with
      | hi :: lo :: _ => lo + 256 * hi
      | _ => 0

/-- An emitted frame: its bytes (ciphertext of `plaintext || signature`,
then the 32-byte tag) together with the nonce it was sealed with. -/
structure Frame where
  bytes : List Nat
  nonce : List Nat

/-- `StreamState::signcrypt_segment`: pad when final, build
`sig_base = SIGNATURE_DOMAIN || encryption_key || nonce || BLAKE3(segment)`,
sign it, append the 64-byte signature, AEAD-encrypt the whole buffer in
place under the payload key with empty associated data, append the 32-byte
tag, and reset the segment buffer, bumping the counter. -/
def signcryptSegment (p : Prims) (key : List Nat) (st : StreamState)
    (lastSegment : Bool) : Except Unit (Frame × StreamState) :=
  let seg := if lastSegment then padSegment st.segment else st.segment
  let nonce := nonceBytes st.segmentCount lastSegment
  let signatureBase := SIGNATURE_DOMAIN ++ key ++ nonce ++ p.plainHash seg
  let seg2 := seg ++ p.sign signatureBase
  match chachaEncrypt p key nonce [] seg2 with
  | .error e => .error e
  | .ok (ct, tag) =>
    .ok (⟨ct ++ tag, nonce⟩, ⟨[], st.segmentCount + 1⟩)

/-- `StreamState::write`: consume `min(|buf|, remaining capacity)` bytes
into the segment buffer; when the buffer reaches exactly `SEGMENT_SIZE`,
seal it as a (non-final) segment. -/
def streamWrite (p : Prims) (key : List Nat) (st : StreamState)
    (buf : List Nat) : Except Unit (Nat × Option Frame × StreamState) :=
  let len := min buf.length (SEGMENT_SIZE - st.segment.length)
  let st1 : StreamState := ⟨st.segment ++ buf.take len, st.segmentCount⟩
  if SEGMENT_SIZE - st1.segment.length = 0 then
    match signcryptSegment p key st1 false with
    | .error e => .error e
    | .ok (frame, st2) => .ok (len, some frame, st2)
  else
    .ok (len, none, st1)

/-- Drive `streamWrite` until a whole buffer is consumed (the `write_all`
loop a caller of the `Write` impl performs).  `fuel` bounds the number of
calls; `writeFull` below supplies enough. -/
def writeFullGo (p : Prims) (key : List Nat) :
    Nat → StreamState → List Nat → Except Unit (List Frame × StreamState)
  | _, st, [] => .ok ([], st)
  | 0, _, _ :: _ => .error ()
  | fuel + 1, st, buf =>
    match streamWrite p key st buf with
    | .error e => .error e
    | .ok (consumed, frame?, st1) =>
      match writeFullGo p key fuel st1 (buf.drop consumed) with
      | .error e => .error e
      | .ok (frames, st2) => .ok (frame?.toList ++ frames, st2)

/-- Write one buffer fully through the stream writer. -/
def writeFull (p : Prims) (key : List Nat) (st : StreamState)
    (buf : List Nat) : Except Unit (List Frame × StreamState) :=
  writeFullGo p key buf.length st buf

/-- Feed a sequence of write buffers through the stream writer. -/
def feedViews (p : Prims) (key : List Nat) :
    StreamState → List (List Nat) → Except Unit (List Frame × StreamState)
  | st, [] => .ok ([], st)
  | st, v :: rest =>
    match writeFull p key st v with
    | .error e => .error e
    | .ok (frames, st1) =>
      match feedViews p key st1 rest with
      | .error e => .error e
      | .ok (frames2, st2) => .ok (frames ++ frames2, st2)

/-- The whole archive payload run: start from an empty stream state, write
the payload (split into arbitrary buffers) through the writer, then
`finish()` (which seals the final, padded segment).  Returns the sequence
of emitted frames. -/
def archiveRun (p : Prims) (key : List Nat) (views : List (List Nat)) :
    Except Unit (List Frame) :=
  match feedViews p key ⟨[], 0⟩ views with
  | .error e => .error e
  | .ok (frames, st) =>
    match signcryptSegment p key st true with
    | .error e => .error e
    | .ok (frame, _) => .ok (frames ++ [frame])

/-!
## §4.H  Archive header builder (`encryptor.rs`)

`Encryptor::with_random` draws `file_key` and an ephemeral X25519 secret
from the CSPRNG; the embedding takes the drawn `file_key` and the ephemeral
public key bytes as inputs, and the per-recipient Diffie-Hellman is a
further abstract primitive.
-/

/-- `BAKPAK_MAGIC = b"bak0"`. -/
def BAKPAK_MAGIC : List Nat := [98, 97, 107, 48]

/-- The bytes the per-recipient loop of `Encryptor::with_random` appends
for one recipient `r`: `recipient_id (32) || wrapped_key (32 + 16)` where
`recipient_id = keyed_hash(derive_key(recipient mac ctx, dh(r)), r)` and
`wrapped_key = ChaCha20Poly1305(derive_key(wrap ctx, dh(r))).encrypt(0, file_key)`. -/
def recipientEntry (p : Prims) (dh : List Nat → List Nat)
    (fileKey r : List Nat) : List Nat :=
  let sharedSecret := dh r
  let recipientMacKey :=
    p.deriveKey "bakpak.rasen.dev 2025-11-01 recipient mac key" sharedSecret
  let wrapKey := p.deriveKey "bakpak.rasen.dev 2025-11-01 wrap key" sharedSecret
  p.keyedHash recipientMacKey r ++ p.poly1305Enc wrapKey fileKey

/-- The header bytes `Encryptor::with_random` builds:
`magic || ephemeral_share || sender_id (32+16) || LE16(recipient_count as u16)
|| per-recipient entries || header_mac (32)`. -/
def headerBytes (p : Prims) (dh : List Nat → List Nat)
    (fileKey ephemeralShare senderVerifyingKey : List Nat)
    (recipients : List (List Nat)) : List Nat :=
  let senderEncryptionKey :=
    p.deriveKey "bakpak.rasen.dev 2025-11-01 sender encryption key" fileKey
  let headerMacKey :=
    p.deriveKey "bakpak.rasen.dev 2025-11-01 header mac key" fileKey
  let senderId := p.poly1305Enc senderEncryptionKey senderVerifyingKey
  let body :=
    BAKPAK_MAGIC ++ ephemeralShare ++ senderId ++
      leBytes 2 (recipients.length % 2 ^ 16) ++
      (recipients.map (recipientEntry p dh fileKey)).flatten
  body ++ p.keyedHash headerMacKey body

/-- `Encryptor::with_random`: reject when `recipients.len() > u16::MAX`,
otherwise build the header.  `none` models the `TooManyRecipients` error. -/
def withRandom (p : Prims) (dh : List Nat → List Nat)
    (fileKey ephemeralShare senderVerifyingKey : List Nat)
    (recipients : List (List Nat)) : Option (List Nat) :=
  if recipients.length > 2 ^ 16 - 1 then none
  else some (headerBytes p dh fileKey ephemeralShare senderVerifyingKey recipients)

/-!
## §4.E  Pack writer (`pack_writer.rs`)

`HASH_SIZE` is the const generic `H`; hashes are byte lists (of length `H`
for well-formed input, as the Rust array type enforces).
-/

/-- Error kinds `PackWriter::write` can raise from its size checks. -/
inductive PackErr where
  | invalidInput
  | fileTooLarge
deriving DecidableEq

/-- The pack writer's state: bytes pushed to the underlying writer so far,
`written_size`, and the in-memory index of `(hash, offset)` entries. -/
structure PackSt where
  output : List Nat
  writtenSize : Nat
  index : List (List Nat × Nat)

/-- The initial pack writer (`PackWriter::new`). -/
def packInit : PackSt := ⟨[], 0, []⟩

/-- `PackWriter::write(hash, data)`: fail with `InvalidInput` when
`data.len()` does not fit `u32`, with `FileTooLarge` when `written_size`
does not fit `u32`; otherwise append `hash || LE32(len) || data`, bump
`written_size` by `H + 4 + len` and record `(hash, offset)`. -/
def packWrite (H : Nat) (st : PackSt) (hash data : List Nat) :
    PackSt × Option PackErr :=
  if 2 ^ 32 ≤ data.length then (st, some .invalidInput)
  else if 2 ^ 32 ≤ st.writtenSize then (st, some .fileTooLarge)
  else
    (⟨st.output ++ hash ++ leBytes 4 data.length ++ data,
      st.writtenSize + H + 4 + data.length,
      st.index ++ [(hash, st.writtenSize)]⟩, none)

/-- `PackWriter::index_size`. -/
def packIndexSize (H : Nat) (st : PackSt) : Nat :=
  st.index.length * (H + 4)

/-- `PackWriter::size()`: projected final pack size. -/
def packSize (H : Nat) (st : PackSt) : Nat :=
  st.writtenSize + packIndexSize H st + 4

/-- Run a sequence of `write` calls; `none` as soon as one fails. -/
def runPackWrites (H : Nat) :
    PackSt → List (List Nat × List Nat) → Option PackSt
  | st, [] => some st
  | st, (hash, data) :: rest =>
    match packWrite H st hash data with
    | (st1, none) => runPackWrites H st1 rest
    | (_, some _) => none

/-- The hash comparison `finalize` sorts by: `a.hash.cmp(&b.hash)` on Rust
byte arrays, i.e. lexicographic order. -/
def hashLe : List Nat → List Nat → Bool
  | [], _ => true
  | _ :: _, [] => false
  | a :: as', b :: bs' =>
    if a < b then true
    else if b < a then false
    else hashLe as' bs'

/-- The ordering relation on index entries used by `finalize`. -/
def entryLe (a b : List Nat × Nat) : Prop := hashLe a.1 b.1 = true

instance : DecidableRel entryLe := fun a b => by
  unfold entryLe; infer_instance

/-- `PackWriter::finalize`: the returned index is the recorded one sorted
ascending by hash (`sort_unstable_by` with the hash comparator; modelled by
insertion sort, a sort). -/
def finalizeIndex (st : PackSt) : List (List Nat × Nat) :=
  List.insertionSort entryLe st.index

/-- The `(hash, offset)` entries a successful run of writes records:
offsets are the running sums of `H + 4 + |data|` over the preceding
records, i.e. the byte position of each record's header in the pack. -/
def expectedIndexGo (H : Nat) (offset : Nat) :
    List (List Nat × List Nat) → List (List Nat × Nat)
  | [] => []
  | (hash, data) :: rest =>
    (hash, offset) :: expectedIndexGo H (offset + H + 4 + data.length) rest

/-- `expectedIndexGo` starting at offset `0`. -/
def expectedIndex (H : Nat) (ops : List (List Nat × List Nat)) :
    List (List Nat × Nat) :=
  expectedIndexGo H 0 ops

/-!
## §4.A/§4.B  AES-Gear rolling hash and chunker state machine
(`chunking/aes_gear.rs`, `chunking/chunker_state.rs`)
-/

/-- The AES-Gear primitives: the 256-entry gear table (`aes_gear_table.rs`,
a compile-time constant table of `u64`s) and the AES-128 PRF that
`AesGearHash::hash` applies to the rolling state. -/
structure GearPrims where
  table : Nat → Nat
  aesPrf : Nat → Nat

/-- `AesGearHash::update`: `state <- (state << 1).wrapping_add(table[byte])`
on `u64`. -/
def gearUpdate (g : GearPrims) (state byte : Nat) : Nat :=
  (state * 2 + g.table byte) % 2 ^ 64

/-- `AesGearHash::hash`: the AES-128-based PRF of the rolling state. -/
def gearHashVal (g : GearPrims) (state : Nat) : Nat :=
  g.aesPrf state

/-- Helper for `ilog2`: the first argument is fuel (at least the number of
halvings needed). -/
def ilog2Go : Nat → Nat → Nat
  | 0, _ => 0
  | fuel + 1, n => if n ≤ 1 then 0 else ilog2Go fuel (n / 2) + 1

/-- `usize::ilog2`: the floor of the base-2 logarithm. -/
def ilog2 (n : Nat) : Nat := ilog2Go n n

/-- `ChunkerConfig` after `ChunkerConfig::new` computed the two masks. -/
structure ChunkerConfig where
  minSize : Nat
  avgSize : Nat
  maxSize : Nat
  beforeAvgSizeMask : Nat
  afterAvgSizeMask : Nat

/-- `ChunkerConfig::new`: precompute
`before_mask = (2 << (log2(avg) + norm)) - 1` and
`after_mask  = (2 << (log2(avg) - norm)) - 1`. -/
def ChunkerConfig.new (minSize avgSize maxSize : Nat)
    (normalizationBits : Nat) : ChunkerConfig :=
  let avgBase := ilog2 avgSize
  { minSize := minSize
    avgSize := avgSize
    maxSize := maxSize
    beforeAvgSizeMask := 2 * 2 ^ (avgBase + normalizationBits) - 1
    afterAvgSizeMask := 2 * 2 ^ (avgBase - normalizationBits) - 1 }

/-- `ChunkerState`: the rolling gear register and the running size of the
current chunk. -/
structure ChunkerState where
  gear : Nat
  size : Nat

/-- The `while self.size < max_size` loop of `ChunkerState::update`
(relaxed mask), followed by the forced cut at `max_size`.  `i` is the
offset into the original buffer. -/
def relaxedLoop (cfg : ChunkerConfig) (g : GearPrims) :
    Nat → ChunkerState → List Nat → ChunkerState × Option Nat
  | i, st, [] =>
    if st.size < cfg.maxSize then (st, none) else (⟨st.gear, 0⟩, some i)
  | i, st, b :: rest =>
    if st.size < cfg.maxSize then
      let gear := gearUpdate g st.gear b
      if Nat.land (gearHashVal g gear) cfg.afterAvgSizeMask = 0 then
        (⟨gear, 0⟩, some (i + 1))
      else
        relaxedLoop cfg g (i + 1) ⟨gear, st.size + 1⟩ rest
    else
      (⟨st.gear, 0⟩, some i)

/-- The `while self.size < avg_size` loop (strict mask), falling through to
the relaxed loop. -/
def strictLoop (cfg : ChunkerConfig) (g : GearPrims) :
    Nat → ChunkerState → List Nat → ChunkerState × Option Nat
  | i, st, [] =>
    if st.size < cfg.avgSize then (st, none) else relaxedLoop cfg g i st []
  | i, st, b :: rest =>
    if st.size < cfg.avgSize then
      let gear := gearUpdate g st.gear b
      if Nat.land (gearHashVal g gear) cfg.beforeAvgSizeMask = 0 then
        (⟨gear, 0⟩, some (i + 1))
      else
        strictLoop cfg g (i + 1) ⟨gear, st.size + 1⟩ rest
    else
      relaxedLoop cfg g i st (b :: rest)

/-- The `while self.size < min_size - 1` warmup loop (hash, no boundary
checks), falling through to the strict loop. -/
def warmupLoop (cfg : ChunkerConfig) (g : GearPrims) :
    Nat → ChunkerState → List Nat → ChunkerState × Option Nat
  | i, st, [] =>
    if st.size < cfg.minSize - 1 then (st, none) else strictLoop cfg g i st []
  | i, st, b :: rest =>
    if st.size < cfg.minSize - 1 then
      warmupLoop cfg g (i + 1) ⟨gearUpdate g st.gear b, st.size + 1⟩ rest
    else
      strictLoop cfg g i st (b :: rest)

/-- `ChunkerState::update`: skip the first `min_size - 64 - size` bytes
without hashing, then run the warmup, strict and relaxed loops.  Returns
the new state and `some consumed` at a boundary, `none` when the whole
buffer was consumed. -/
def chunkerUpdate (cfg : ChunkerConfig) (g : GearPrims) (st : ChunkerState)
    (buf : List Nat) : ChunkerState × Option Nat :=
  if st.size < cfg.minSize - 64 then
    let toSkip := cfg.minSize - 64 - st.size
    if buf.length ≤ toSkip then
      (⟨st.gear, st.size + buf.length⟩, none)
    else
      warmupLoop cfg g toSkip ⟨st.gear, st.size + toSkip⟩ (buf.drop toSkip)
  else
    warmupLoop cfg g 0 st buf

/-!
### §4.C  Streaming chunker adapter (`stream_chunker.rs`)

`StreamChunker::next` repeatedly takes the reader's current fill view,
passes it to `ChunkerState::update`, appends the consumed prefix to the
accumulating chunk and advances the reader; a boundary yields the chunk.
The reader is modelled as the list of its successive fill views (a partial
consume leaves the rest of the view as the next fill view, as `BufRead`
guarantees).  `fuel` bounds the number of iterations; `chunkRun` supplies
enough for any input.
-/

def chunkRunGo (cfg : ChunkerConfig) (g : GearPrims) :
    Nat → ChunkerState → List Nat → List (List Nat) → List (List Nat)
  | _, _, acc, [] => if acc.isEmpty then [] else [acc]
  | 0, _, acc, _ :: _ => [acc]
  | fuel + 1, st, acc, v :: rest =>
    match chunkerUpdate cfg g st v with
    | (st1, none) => chunkRunGo cfg g fuel st1 (acc ++ v) rest
    | (st1, some consumed) =>
      (acc ++ v.take consumed) ::
        chunkRunGo cfg g fuel st1 [] (v.drop consumed :: rest)

/-- Total number of payload bytes in a list of fill views. -/
def viewsLen (views : List (List Nat)) : Nat :=
  (views.map List.length).sum

/-- The full chunker run over a stream delivered as fill views `views`. -/
def chunkRun (cfg : ChunkerConfig) (g : GearPrims)
    (views : List (List Nat)) : List (List Nat) :=
  chunkRunGo cfg g (viewsLen views + views.length + 1) ⟨0, 0⟩ [] views

/-!
## Result extractors (for stating claims about fallible runs)
-/

/-- Whether an AEAD / stream writer result is a success. -/
def isOkE {α : Type} : Except Unit α → Bool
  | .ok _ => true
  | .error _ => false

/-- The number of frames of an archive run (`0` for a failed run). -/
def framesCount (r : Except Unit (List Frame)) : Nat :=
  match r with
  | .ok frames => frames.length
  | .error _ => 0

/-- A concrete gear primitive instance (zero table, zero PRF), used to
evaluate the chunker embedding on concrete inputs. -/
def trivGear : GearPrims := ⟨fun _ => 0, fun _ => 0⟩

/-!
## Theorems

### §4.G  AEAD claims
-/

theorem computeTag_some (p : Prims) (key nonce ad ct : List Nat)
    (hAd : ad.length < 2 ^ 64) (hCt : ct.length < 2 ^ 64) :
    computeTag p key nonce ad ct =
      some (p.keyedHash (p.deriveKey "BLAKE3-256.KeyedHash()" key)
        (nonce ++ ad ++ ct ++ leBytes 8 ad.length ++ leBytes 8 ct.length)) := by
  unfold computeTag
  rw [if_pos hAd, if_pos hCt]

/-- Shared success/roundtrip fact: when the block-count guard passes and the
associated data length fits `u64`, encryption succeeds with a ciphertext of
the buffer's length, and decryption of that ciphertext under the produced
tag recovers the buffer. -/
theorem chacha_roundtrip_aux (p : Prims) (key nonce ad buffer : List Nat)
    (hAd : ad.length < 2 ^ 64)
    (hLen : buffer.length / 64 < 2 ^ 32 - 1) :
    ∃ ct tag, chachaEncrypt p key nonce ad buffer = .ok (ct, tag) ∧
      ct.length = buffer.length ∧ tag.length = 32 ∧
      chachaDecrypt p key nonce ad ct tag = .ok buffer := by
  have hg : ¬ MAX_BLOCKS ≤ buffer.length / BLOCK_SIZE := by
    simp only [MAX_BLOCKS, BLOCK_SIZE]
    omega
  have hbuf64 : buffer.length < 2 ^ 64 := by
    have := Nat.div_add_mod buffer.length 64
    have hm : buffer.length % 64 < 64 := Nat.mod_lt _ (by norm_num)
    omega
  have hksl :
      (p.keystream (p.deriveKey "ChaCha20.Encrypt()" key) nonce
        buffer.length).length = buffer.length := p.keystream_length _ _ _
  have hctl :
      (xorBytes buffer (p.keystream (p.deriveKey "ChaCha20.Encrypt()" key)
        nonce buffer.length)).length = buffer.length := by
    rw [xorBytes_length, hksl, Nat.min_self]
  refine
    ⟨xorBytes buffer (p.keystream (p.deriveKey "ChaCha20.Encrypt()" key)
        nonce buffer.length),
      p.keyedHash (p.deriveKey "BLAKE3-256.KeyedHash()" key)
        (nonce ++ ad ++
          xorBytes buffer (p.keystream (p.deriveKey "ChaCha20.Encrypt()" key)
            nonce buffer.length) ++
          leBytes 8 ad.length ++ leBytes 8 buffer.length),
      ?_, hctl, p.keyedHash_length _ _, ?_⟩
  · unfold chachaEncrypt
    rw [if_neg hg,
      computeTag_some p key nonce ad _ hAd (by rw [hctl]; exact hbuf64), hctl]
  · unfold chachaDecrypt
    rw [hctl, if_neg hg,
      computeTag_some p key nonce ad _ hAd (by rw [hctl]; exact hbuf64), hctl]
    simp [xorBytes_xorBytes_cancel _ _ hksl]

/-- C7: The AEAD round-trip holds on the domain the code accepts
(`|P| / 64 < 2^32 - 1`; the claim's bound `2^32` is corrected by
`chacha_roundtrip_bound_cex`). -/
theorem chacha_roundtrip (p : Prims) (key nonce ad buffer : List Nat)
    (_hK : key.length = 32) (_hN : nonce.length = 12)
    (hAd : ad.length < 2 ^ 64)
    (hLen : buffer.length / 64 < 2 ^ 32 - 1) :
    ∃ ct tag, chachaEncrypt p key nonce ad buffer = .ok (ct, tag) ∧
      chachaDecrypt p key nonce ad ct tag = .ok buffer := by
  obtain ⟨ct, tag, henc, _, _, hdec⟩ :=
    chacha_roundtrip_aux p key nonce ad buffer hAd hLen
  exact ⟨ct, tag, henc, hdec⟩

/-- C7 witness: the round-trip at a concrete key/nonce/plaintext. -/
theorem chacha_roundtrip_witness :
    (List.replicate 32 0 : List Nat).length = 32 ∧
    (List.replicate 12 0 : List Nat).length = 12 ∧
    ([] : List Nat).length < 2 ^ 64 ∧
    ([1, 2, 3] : List Nat).length / 64 < 2 ^ 32 - 1 ∧
    (∃ ct tag,
      chachaEncrypt trivPrims (List.replicate 32 0) (List.replicate 12 0) []
        [1, 2, 3] = .ok (ct, tag) ∧
      chachaDecrypt trivPrims (List.replicate 32 0) (List.replicate 12 0) []
        ct tag = .ok [1, 2, 3]) :=
  ⟨by decide, by decide, by decide, by decide,
    chacha_roundtrip trivPrims (List.replicate 32 0) (List.replicate 12 0) []
      [1, 2, 3] (by decide) (by decide) (by decide) (by decide)⟩

/-- C7 counterexample: a buffer with `|P| / 64 < 2^32` (the claim's stated
bound) on which encryption — and hence the encrypt-then-decrypt round-trip —
fails, because the code rejects at `2^32 - 1` blocks already. -/
theorem chacha_roundtrip_bound_cex :
    (List.replicate (64 * (2 ^ 32 - 1)) 0 : List Nat).length / 64 < 2 ^ 32 ∧
    chachaEncrypt trivPrims (List.replicate 32 0) (List.replicate 12 0) []
      (List.replicate (64 * (2 ^ 32 - 1)) 0) = .error () := by
  constructor
  · rw [List.length_replicate]
    decide
  · unfold chachaEncrypt
    rw [if_pos]
    rw [List.length_replicate]
    decide

/-- C8: `encrypt_in_place_detached` fails exactly when
`len(buffer) / 64 ≥ 2^32 - 1` (`MAX_BLOCKS = u32::MAX`); the claim's
threshold `2^32` is corrected by `chachaEncrypt_guard_cex`. -/
theorem chachaEncrypt_error_iff (p : Prims) (key nonce ad buffer : List Nat)
    (hAd : ad.length < 2 ^ 64) :
    isOkE (chachaEncrypt p key nonce ad buffer) = false ↔
      2 ^ 32 - 1 ≤ buffer.length / 64 := by
  by_cases hg : MAX_BLOCKS ≤ buffer.length / BLOCK_SIZE
  · unfold chachaEncrypt
    rw [if_pos hg]
    simpa [isOkE, MAX_BLOCKS, BLOCK_SIZE] using hg
  · have hLen : buffer.length / 64 < 2 ^ 32 - 1 := by
      simp only [MAX_BLOCKS, BLOCK_SIZE] at hg
      omega
    obtain ⟨ct, tag, henc, _, _, _⟩ :=
      chacha_roundtrip_aux p key nonce ad buffer hAd hLen
    rw [henc]
    simp only [isOkE]
    constructor
    · intro h
      exact absurd h (by simp)
    · intro h
      omega

/-- C8 witness: a concrete accepted buffer. -/
theorem chachaEncrypt_error_iff_witness :
    ([] : List Nat).length < 2 ^ 64 ∧
    (isOkE (chachaEncrypt trivPrims (List.replicate 32 0)
        (List.replicate 12 0) [] [7]) = false ↔
      2 ^ 32 - 1 ≤ ([7] : List Nat).length / 64) :=
  ⟨by decide,
    chachaEncrypt_error_iff trivPrims (List.replicate 32 0)
      (List.replicate 12 0) [] [7] (by decide)⟩

/-- C8 counterexample: a buffer with `len / 64 < 2^32`, which the claim
says must be accepted, but which the code rejects. -/
theorem chachaEncrypt_guard_cex :
    (List.replicate (64 * (2 ^ 32 - 1)) 1 : List Nat).length / 64 < 2 ^ 32 ∧
    isOkE (chachaEncrypt trivPrims (List.replicate 32 1)
      (List.replicate 12 1) [] (List.replicate (64 * (2 ^ 32 - 1)) 1)) =
      false := by
  constructor
  · rw [List.length_replicate]
    decide
  · unfold chachaEncrypt
    rw [if_pos]
    · rfl
    rw [List.length_replicate]
    decide

/-!
### §4.I  Last-segment padding (C4)
-/

/-- Whenever the buffered segment is not full, padding it fills it exactly
to `SEGMENT_SIZE`. -/
theorem padSegment_length (seg : List Nat) (h : seg.length < SEGMENT_SIZE) :
    (padSegment seg).length = SEGMENT_SIZE := by
  unfold padSegment
  by_cases hc : SEGMENT_SIZE - seg.length ≤ 255
  · rw [if_pos hc]
    simp only [List.length_append, List.length_replicate, List.length_cons,
      List.length_nil]
    omega
  · rw [if_neg hc]
    simp only [List.length_append, List.length_replicate, leBytes_length,
      List.length_cons, List.length_nil]
    omega

/-- The padding rule round-trips for every pad length the `u16` encoding can
represent: for `p ∈ [1, 65535]` and any segment of pre-pad length
`65536 - p`, the padded buffer has length `65536` and decodes back to `p`. -/
theorem padSegment_roundtrip (seg : List Nat) (p : Nat) (hp1 : 1 ≤ p)
    (hp2 : p ≤ 65535) (hlen : seg.length = 65536 - p) :
    (padSegment seg).length = 65536 ∧ decodePad (padSegment seg) = p := by
  have htp : SEGMENT_SIZE - seg.length = p := by
    simp only [SEGMENT_SIZE]
    omega
  have hlen65536 : (padSegment seg).length = 65536 := by
    rw [padSegment_length seg (by simp only [SEGMENT_SIZE]; omega)]
    rfl
  refine ⟨hlen65536, ?_⟩
  by_cases hshort : p ≤ 255
  · have hps : padSegment seg = seg ++ List.replicate (p - 1) 0 ++ [p] := by
      unfold padSegment
      rw [htp, if_pos hshort]
    rw [hps]
    unfold decodePad
    simp only [List.reverse_append, List.reverse_cons, List.reverse_nil,
      List.nil_append, List.cons_append]
    rw [if_pos (show p ≠ 0 by omega)]
  · have hmod : p % 2 ^ 16 = p := Nat.mod_eq_of_lt (by omega)
    have hle : leBytes 2 (p % 2 ^ 16) = [p % 256, p / 256 % 256] := by
      rw [hmod]
      simp [leBytes, List.range_succ]
    have hps : padSegment seg =
        seg ++ List.replicate (p - 3) 0 ++ [p % 256, p / 256 % 256] ++ [0] := by
      unfold padSegment
      rw [htp, if_neg hshort, hle]
    rw [hps]
    unfold decodePad
    simp only [List.reverse_append, List.reverse_cons, List.reverse_nil,
      List.nil_append, List.cons_append]
    rw [if_neg (by simp)]
    have h256 : p / 256 % 256 = p / 256 := by
      rw [Nat.mod_eq_of_lt]
      omega
    rw [h256]
    omega

theorem padSegment_empty_guard :
    ¬ SEGMENT_SIZE - ([] : List Nat).length ≤ 255 := by
  simp [SEGMENT_SIZE]

theorem padSegment_empty_leBytes :
    leBytes 2 ((SEGMENT_SIZE - ([] : List Nat).length) % 2 ^ 16) = [0, 0] := by
  simp [SEGMENT_SIZE, leBytes, List.range_succ]

/-- The padded empty segment, written out: `65533` zeros, the truncated
little-endian length `LE16(65536 as u16) = [0, 0]`, and the long-form
terminator `0`. -/
theorem padSegment_empty_eq : padSegment ([] : List Nat) =
    [] ++ List.replicate (SEGMENT_SIZE - ([] : List Nat).length - 3) 0 ++
      [0, 0] ++ [0] := by
  unfold padSegment
  rw [if_neg padSegment_empty_guard, padSegment_empty_leBytes]

/-- C4 (failing input, `p = 65536`): padding an empty last segment (which
`finish()` produces whenever the payload length is a multiple of 65536,
including an empty payload) yields a 65536-byte buffer whose encoded pad
length is `65536 as u16 = 0`: the decoding rule recovers `0`, not `65536`,
so `p` is not recoverable, contradicting the claim (and the code's own
`debug_assert!(to_pad <= u16::MAX as usize)`). -/
theorem padSegment_p65536_bug :
    (padSegment ([] : List Nat)).length = 65536 ∧
    decodePad (padSegment ([] : List Nat)) = 0 ∧
    (0 : Nat) ≠ 65536 := by
  refine ⟨?_, ?_, by omega⟩
  · rw [padSegment_length [] (by simp [SEGMENT_SIZE])]
    rfl
  · rw [padSegment_empty_eq]
    unfold decodePad
    simp only [List.nil_append, List.reverse_append, List.reverse_cons,
      List.reverse_nil, List.reverse_replicate, List.cons_append,
      List.singleton_append]
    norm_num

/-!
### §4.E  Pack writer claims (C9, C10)
-/

theorem hashLe_total : ∀ a b : List Nat, hashLe a b = true ∨ hashLe b a = true := by
  intro a
  induction a with
  | nil => intro b; left; rfl
  | cons x xs ih =>
    intro b
    cases b with
    | nil => right; rfl
    | cons y ys =>
      rcases Nat.lt_trichotomy x y with h | h | h
      · left
        simp [hashLe, h]
      · subst h
        simp only [hashLe, Nat.lt_irrefl, if_false]
        exact ih ys
      · right
        simp [hashLe, h]

theorem hashLe_trans : ∀ a b c : List Nat,
    hashLe a b = true → hashLe b c = true → hashLe a c = true := by
  intro a
  induction a with
  | nil => intro b c _ _; rfl
  | cons x xs ih =>
    intro b c hab hbc
    cases b with
    | nil => exact absurd hab (by simp [hashLe])
    | cons y ys =>
      cases c with
      | nil => exact absurd hbc (by simp [hashLe])
      | cons z zs =>
        simp only [hashLe] at hab hbc ⊢
        by_cases hxy : x < y
        · by_cases hyz : y < z
          · rw [if_pos (Nat.lt_trans hxy hyz)]
          · by_cases hzy : z < y
            · rw [if_neg hyz, if_pos hzy] at hbc
              exact absurd hbc (by simp)
            · have hyz' : y = z := by omega
              subst hyz'
              rw [if_pos hxy]
        · by_cases hyx : y < x
          · rw [if_neg hxy, if_pos hyx] at hab
            exact absurd hab (by simp)
          · have hxy' : x = y := by omega
            subst hxy'
            rw [if_neg hxy, if_neg hyx] at hab
            by_cases hyz : x < z
            · rw [if_pos hyz]
            · by_cases hzy : z < x
              · rw [if_neg hyz, if_pos hzy] at hbc
                exact absurd hbc (by simp)
              · rw [if_neg hyz, if_neg hzy] at hbc ⊢
                exact ih ys zs hab hbc

instance : IsTotal (List Nat × Nat) entryLe :=
  ⟨fun a b => by
    unfold entryLe
    exact hashLe_total a.1 b.1⟩

instance : IsTrans (List Nat × Nat) entryLe :=
  ⟨fun a b c hab hbc => hashLe_trans a.1 b.1 c.1 hab hbc⟩

/-- C10: when `PackWriter::write` fails a size check, the writer is left
exactly as it was: nothing is appended to the output, `written_size` and the
index are unchanged, so `size()`, `finalize()` and any later sequence of
writes behave as if the failing call had never been made. -/
theorem packWrite_fail_unchanged (H : Nat) (st : PackSt)
    (hash data : List Nat) (st1 : PackSt) (e : PackErr)
    (hfail : packWrite H st hash data = (st1, some e)) :
    st1 = st ∧ st1.output = st.output ∧ st1.writtenSize = st.writtenSize ∧
    st1.index = st.index ∧ packSize H st1 = packSize H st ∧
    finalizeIndex st1 = finalizeIndex st ∧
    ∀ ops, runPackWrites H st1 ops = runPackWrites H st ops := by
  have hst : st1 = st := by
    unfold packWrite at hfail
    by_cases h1 : 2 ^ 32 ≤ data.length
    · rw [if_pos h1] at hfail
      exact (Prod.mk.injEq _ _ _ _ ▸ hfail).1.symm
    · rw [if_neg h1] at hfail
      by_cases h2 : 2 ^ 32 ≤ st.writtenSize
      · rw [if_pos h2] at hfail
        exact (Prod.mk.injEq _ _ _ _ ▸ hfail).1.symm
      · rw [if_neg h2] at hfail
        exact absurd (Prod.mk.injEq _ _ _ _ ▸ hfail).2 (by simp)
  subst hst
  exact ⟨rfl, rfl, rfl, rfl, rfl, rfl, fun _ => rfl⟩

/-- C10 witness: a concrete oversized write fails with `InvalidInput` and
leaves the fresh pack writer untouched. -/
theorem packWrite_fail_unchanged_witness :
    packWrite 32 packInit [] (List.replicate (2 ^ 32) 0) =
      (packInit, some PackErr.invalidInput) ∧
    (packInit = packInit ∧ packInit.output = packInit.output ∧
      packInit.writtenSize = packInit.writtenSize ∧
      packInit.index = packInit.index ∧
      packSize 32 packInit = packSize 32 packInit ∧
      finalizeIndex packInit = finalizeIndex packInit ∧
      ∀ ops, runPackWrites 32 packInit ops = runPackWrites 32 packInit ops) := by
  have hfail : packWrite 32 packInit [] (List.replicate (2 ^ 32) 0) =
      (packInit, some PackErr.invalidInput) := by
    unfold packWrite
    rw [List.length_replicate, if_pos (Nat.le_refl _)]
  exact ⟨hfail,
    packWrite_fail_unchanged 32 packInit [] (List.replicate (2 ^ 32) 0)
      packInit PackErr.invalidInput hfail⟩

theorem expectedIndexGo_map_fst (H : Nat) :
    ∀ (offset : Nat) (ops : List (List Nat × List Nat)),
      (expectedIndexGo H offset ops).map Prod.fst = ops.map Prod.fst := by
  intro offset ops
  induction ops generalizing offset with
  | nil => rfl
  | cons op rest ih =>
    obtain ⟨hash, data⟩ := op
    simp [expectedIndexGo, ih]

/-- Invariant of a successful run of writes: the recorded index is the
per-record `(hash, running-offset)` list, and the bytes pushed to the
underlying writer account exactly for `written_size` (so each recorded
offset is the byte position of that record's header in the pack). -/
theorem runPackWrites_spec (H : Nat) :
    ∀ (ops : List (List Nat × List Nat)) (st0 st : PackSt),
      runPackWrites H st0 ops = some st →
      (∀ e ∈ ops, e.1.length = H) →
      st0.output.length = st0.writtenSize →
      st.index = st0.index ++ expectedIndexGo H st0.writtenSize ops ∧
      st.output.length = st.writtenSize := by
  intro ops
  induction ops with
  | nil =>
    intro st0 st hrun _ hinv
    simp only [runPackWrites, Option.some.injEq] at hrun
    subst hrun
    simp [expectedIndexGo, hinv]
  | cons op rest ih =>
    intro st0 st hrun hh hinv
    obtain ⟨hash, data⟩ := op
    simp only [runPackWrites] at hrun
    unfold packWrite at hrun
    by_cases h1 : 2 ^ 32 ≤ data.length
    · rw [if_pos h1] at hrun
      simp at hrun
    · rw [if_neg h1] at hrun
      by_cases h2 : 2 ^ 32 ≤ st0.writtenSize
      · rw [if_pos h2] at hrun
        simp at hrun
      · rw [if_neg h2] at hrun
        simp only [] at hrun
        have hhash : hash.length = H := hh (hash, data) (by simp)
        have hinv1 :
            (st0.output ++ hash ++ leBytes 4 data.length ++ data).length =
              st0.writtenSize + H + 4 + data.length := by
          simp [List.length_append, hinv, hhash, leBytes_length]
          omega
        obtain ⟨hidx, hout⟩ :=
          ih ⟨st0.output ++ hash ++ leBytes 4 data.length ++ data,
              st0.writtenSize + H + 4 + data.length,
              st0.index ++ [(hash, st0.writtenSize)]⟩ st hrun
            (fun e he => hh e (List.mem_cons_of_mem _ he)) hinv1
        refine ⟨?_, hout⟩
        rw [hidx]
        simp [expectedIndexGo, List.append_assoc]

/-- C9: after a successful sequence of `write(hash, data)` calls, the index
`finalize` returns is exactly the recorded `(hash, offset)` entries
reordered ascending by hash: it is sorted under the lexicographic hash
order, it is a permutation of the recorded entries (whose offsets are the
running byte positions of the record headers), and its hash set equals the
set of hashes passed to `write`. -/
theorem packFinalize_spec (H : Nat) (ops : List (List Nat × List Nat))
    (st : PackSt) (hrun : runPackWrites H packInit ops = some st)
    (hh : ∀ e ∈ ops, e.1.length = H) :
    List.Sorted entryLe (finalizeIndex st) ∧
    List.Perm (finalizeIndex st) (expectedIndex H ops) ∧
    st.index = expectedIndex H ops ∧
    (∀ h, h ∈ (finalizeIndex st).map Prod.fst ↔ h ∈ ops.map Prod.fst) ∧
    st.output.length = st.writtenSize := by
  obtain ⟨hidx, hout⟩ := runPackWrites_spec H ops packInit st hrun hh rfl
  have hidx' : st.index = expectedIndex H ops := by
    simpa [packInit, expectedIndex] using hidx
  have hperm : List.Perm (finalizeIndex st) st.index :=
    List.perm_insertionSort entryLe st.index
  refine ⟨List.sorted_insertionSort entryLe st.index, ?_, hidx', ?_, hout⟩
  · rw [← hidx']
    exact hperm
  · intro h
    have hmem : h ∈ (finalizeIndex st).map Prod.fst ↔ h ∈ st.index.map Prod.fst :=
      (hperm.map Prod.fst).mem_iff
    rw [hmem, hidx', expectedIndex, expectedIndexGo_map_fst]

/-- C9 witness: two concrete writes; the finalized index is sorted, is a
permutation of the recorded entries, and carries the recorded offsets. -/
theorem packFinalize_spec_witness :
    runPackWrites 1 packInit [([1], [5, 6]), ([0], [7])] =
      some ⟨[1, 2, 0, 0, 0, 5, 6, 0, 1, 0, 0, 0, 7], 13,
        [([1], 0), ([0], 7)]⟩ ∧
    (∀ e ∈ [([1], [5, 6]), (([0] : List Nat), ([7] : List Nat))],
      e.1.length = 1) ∧
    (List.Sorted entryLe (finalizeIndex ⟨[1, 2, 0, 0, 0, 5, 6, 0, 1, 0, 0, 0, 7],
        13, [([1], 0), ([0], 7)]⟩) ∧
      List.Perm (finalizeIndex ⟨[1, 2, 0, 0, 0, 5, 6, 0, 1, 0, 0, 0, 7], 13,
        [([1], 0), ([0], 7)]⟩)
        (expectedIndex 1 [([1], [5, 6]), ([0], [7])]) ∧
      (⟨[1, 2, 0, 0, 0, 5, 6, 0, 1, 0, 0, 0, 7], 13,
        [([1], 0), ([0], 7)]⟩ : PackSt).index =
        expectedIndex 1 [([1], [5, 6]), ([0], [7])] ∧
      (∀ h, h ∈ (finalizeIndex ⟨[1, 2, 0, 0, 0, 5, 6, 0, 1, 0, 0, 0, 7], 13,
          [([1], 0), ([0], 7)]⟩).map Prod.fst ↔
        h ∈ ([([1], [5, 6]), ([0], [7])] :
          List (List Nat × List Nat)).map Prod.fst) ∧
      (⟨[1, 2, 0, 0, 0, 5, 6, 0, 1, 0, 0, 0, 7], 13,
        [([1], 0), ([0], 7)]⟩ : PackSt).output.length =
        (⟨[1, 2, 0, 0, 0, 5, 6, 0, 1, 0, 0, 0, 7], 13,
          [([1], 0), ([0], 7)]⟩ : PackSt).writtenSize) := by
  have hrun : runPackWrites 1 packInit [([1], [5, 6]), ([0], [7])] =
      some ⟨[1, 2, 0, 0, 0, 5, 6, 0, 1, 0, 0, 0, 7], 13,
        [([1], 0), ([0], 7)]⟩ := by rfl
  have hh : ∀ e ∈ [([1], [5, 6]), (([0] : List Nat), ([7] : List Nat))],
      e.1.length = 1 := by decide
  exact ⟨hrun, hh, packFinalize_spec 1 _ _ hrun hh⟩

/-!
### §4.H  Header builder claims (C3, C5)
-/

theorem recipientEntry_length (p : Prims) (dh : List Nat → List Nat)
    (fileKey r : List Nat) (hfk : fileKey.length = 32) :
    (recipientEntry p dh fileKey r).length = 32 + (32 + 16) := by
  unfold recipientEntry
  rw [List.length_append, p.keyedHash_length, p.poly1305Enc_length, hfk]

/-- C3 (amended): the header `with_random` builds is
`magic(4) || ephemeral_share(32) || sender_id+tag(32+16) ||
LE16(recipient_count)(2) || N·(32+32+16) recipient entries || mac(32)`,
of total length `118 + 80·N`, with the `u16` recipient count at byte
offset `84`. -/
theorem headerBytes_layout (p : Prims) (dh : List Nat → List Nat)
    (fileKey eph svk : List Nat) (recipients : List (List Nat))
    (hfk : fileKey.length = 32) (heph : eph.length = 32)
    (hsvk : svk.length = 32) (hn : recipients.length ≤ 2 ^ 16 - 1) :
    withRandom p dh fileKey eph svk recipients =
      some (headerBytes p dh fileKey eph svk recipients) ∧
    (headerBytes p dh fileKey eph svk recipients).length =
      4 + 32 + (32 + 16) + 2 + recipients.length * (32 + 32 + 16) + 32 ∧
    (∃ pre post, headerBytes p dh fileKey eph svk recipients =
      pre ++ leBytes 2 recipients.length ++ post ∧ pre.length = 84) := by
  have hflat :
      ((recipients.map (recipientEntry p dh fileKey)).flatten).length =
        recipients.length * (32 + 32 + 16) := by
    rw [List.length_flatten, List.map_map]
    have hmap :
        recipients.map (List.length ∘ recipientEntry p dh fileKey) =
          recipients.map (fun _ => 80) :=
      List.map_congr_left fun r _ => by
        simpa using recipientEntry_length p dh fileKey r hfk
    rw [hmap, List.map_const']
    simp [List.sum_replicate, Nat.smul_one_eq_cast]
  have hmod : recipients.length % 2 ^ 16 = recipients.length :=
    Nat.mod_eq_of_lt (by omega)
  refine ⟨?_, ?_, ?_⟩
  · unfold withRandom
    rw [if_neg (by omega)]
  · unfold headerBytes
    simp only [List.length_append, p.keyedHash_length, p.poly1305Enc_length,
      leBytes_length, heph, hsvk, hflat, BAKPAK_MAGIC, List.length_cons,
      List.length_nil]
  · refine ⟨BAKPAK_MAGIC ++ eph ++
      p.poly1305Enc
        (p.deriveKey "bakpak.rasen.dev 2025-11-01 sender encryption key"
          fileKey) svk,
      (recipients.map (recipientEntry p dh fileKey)).flatten ++
        p.keyedHash
          (p.deriveKey "bakpak.rasen.dev 2025-11-01 header mac key" fileKey)
          (BAKPAK_MAGIC ++ eph ++
            p.poly1305Enc
              (p.deriveKey "bakpak.rasen.dev 2025-11-01 sender encryption key"
                fileKey) svk ++
            leBytes 2 (recipients.length % 2 ^ 16) ++
            (recipients.map (recipientEntry p dh fileKey)).flatten),
      ?_, ?_⟩
    · unfold headerBytes
      rw [hmod]
      simp [List.append_assoc]
    · rw [List.length_append, List.length_append, p.poly1305Enc_length,
        heph, hsvk]
      rfl

/-- C3 witness: one recipient, concrete primitives. -/
theorem headerBytes_layout_witness :
    (List.replicate 32 0 : List Nat).length = 32 ∧
    ((List.replicate 32 0 : List Nat) :: []).length ≤ 2 ^ 16 - 1 ∧
    (withRandom trivPrims (fun _ => List.replicate 32 0) (List.replicate 32 0)
        (List.replicate 32 0) (List.replicate 32 0) [List.replicate 32 0] =
      some (headerBytes trivPrims (fun _ => List.replicate 32 0)
        (List.replicate 32 0) (List.replicate 32 0) (List.replicate 32 0)
        [List.replicate 32 0]) ∧
    (headerBytes trivPrims (fun _ => List.replicate 32 0)
        (List.replicate 32 0) (List.replicate 32 0) (List.replicate 32 0)
        [List.replicate 32 0]).length =
      4 + 32 + (32 + 16) + 2 + ([List.replicate 32 0] : List (List Nat)).length * (32 + 32 + 16) + 32 ∧
    (∃ pre post, headerBytes trivPrims (fun _ => List.replicate 32 0)
        (List.replicate 32 0) (List.replicate 32 0) (List.replicate 32 0)
        [List.replicate 32 0] =
      pre ++ leBytes 2 ([List.replicate 32 0] : List (List Nat)).length ++ post ∧
      pre.length = 84)) :=
  ⟨by decide, by decide,
    headerBytes_layout trivPrims (fun _ => List.replicate 32 0)
      (List.replicate 32 0) (List.replicate 32 0) (List.replicate 32 0)
      [List.replicate 32 0] (by decide) (by decide) (by decide) (by decide)⟩

/-- C3 counterexample: with zero recipients the header is 118 bytes, not
the `4 + 4 + 32 + 0·96 + 32 + 32 + 32 = 136` bytes the claim states. -/
theorem headerBytes_length_cex :
    (headerBytes trivPrims (fun _ => List.replicate 32 0)
      (List.replicate 32 0) (List.replicate 32 0) (List.replicate 32 0)
      []).length = 118 ∧
    (118 : Nat) ≠ 4 + 4 + 32 + 0 * (32 + 32 + 32) + 32 + 32 + 32 := by
  refine ⟨?_, by decide⟩
  rfl

/-- C5 (amended): `with_random` rejects with `TooManyRecipients` exactly
when the recipient list is longer than `u16::MAX = 2^16 - 1`. -/
theorem withRandom_tooMany_iff (p : Prims) (dh : List Nat → List Nat)
    (fileKey eph svk : List Nat) (recipients : List (List Nat)) :
    (withRandom p dh fileKey eph svk recipients = none ↔
      2 ^ 16 - 1 < recipients.length) := by
  unfold withRandom
  by_cases h : recipients.length > 2 ^ 16 - 1
  · rw [if_pos h]
    simpa using h
  · rw [if_neg h]
    simpa using h

/-- C5 counterexample: a list of `2^16` recipients — far below the claim's
`2^32 - 1` bound — is already rejected. -/
theorem withRandom_bound_cex :
    (List.replicate 65536 ([] : List Nat)).length ≤ 2 ^ 32 - 1 ∧
    withRandom trivPrims (fun _ => List.replicate 32 0) (List.replicate 32 0)
      (List.replicate 32 0) (List.replicate 32 0)
      (List.replicate 65536 ([] : List Nat)) = none := by
  constructor
  · rw [List.length_replicate]
    decide
  · unfold withRandom
    rw [if_pos]
    rw [List.length_replicate]
    decide

/-!
### §4.I  Stream framing claims (C2)
-/

theorem nonceBytes_getD11_true (c : Nat) :
    (nonceBytes c true).getD 11 0 =
      ((c % 2 ^ 64) ||| 2 ^ 63) / 256 ^ 7 % 256 := by
  simp [nonceBytes, leBytes, List.range_succ]

theorem nonceBytes_getD11_false (c : Nat) :
    (nonceBytes c false).getD 11 0 = c % 2 ^ 64 / 256 ^ 7 % 256 := by
  simp [nonceBytes, leBytes, List.range_succ, Nat.or_zero]

/-- The last-segment flag is set on every nonce built with `last = true`. -/
theorem nonceLastFlag_true (c : Nat) :
    nonceLastFlag (nonceBytes c true) = true := by
  unfold nonceLastFlag
  rw [nonceBytes_getD11_true]
  have ht : ((c % 2 ^ 64) ||| 2 ^ 63).testBit 63 = true := by
    rw [Nat.testBit_lor, Nat.testBit_two_pow_self]
    simp
  rw [Nat.testBit_to_div_mod] at ht
  have h63 : ((c % 2 ^ 64) ||| 2 ^ 63) / 2 ^ 63 % 2 = 1 := by
    simpa using ht
  have hq : ((c % 2 ^ 64) ||| 2 ^ 63) / 256 ^ 7 / 128 =
      ((c % 2 ^ 64) ||| 2 ^ 63) / 2 ^ 63 := by
    rw [Nat.div_div_eq_div_mul]
    norm_num
  simp only [decide_eq_true_eq]
  omega

/-- The last-segment flag is clear on every nonce built with `last = false`
from a counter below `2^63`. -/
theorem nonceLastFlag_false (c : Nat) (hc : c < 2 ^ 63) :
    nonceLastFlag (nonceBytes c false) = false := by
  unfold nonceLastFlag
  rw [nonceBytes_getD11_false]
  have hmod : c % 2 ^ 64 = c := Nat.mod_eq_of_lt (by omega)
  rw [hmod]
  have hq : c / 256 ^ 7 / 128 = c / 2 ^ 63 := by
    rw [Nat.div_div_eq_div_mul]
    norm_num
  have h0 : c / 2 ^ 63 = 0 := Nat.div_eq_of_lt hc
  simp only [decide_eq_false_iff_not, not_le]
  omega

/-- `signcrypt_segment` on a (padded-to-)full segment: emits one frame of
exactly `65536 + 64 + 32 = 65632` bytes, sealed with
`nonce(segment_count, last)`, and resets the buffer, bumping the counter. -/
theorem signcryptSegment_spec (p : Prims) (key : List Nat) (st : StreamState)
    (lastSegment : Bool)
    (hseg : (if lastSegment then padSegment st.segment else st.segment).length
      = SEGMENT_SIZE) :
    ∃ frame, signcryptSegment p key st lastSegment =
        .ok (frame, ⟨[], st.segmentCount + 1⟩) ∧
      frame.bytes.length = 65632 ∧
      frame.nonce = nonceBytes st.segmentCount lastSegment := by
  have hseg2len :
      ((if lastSegment then padSegment st.segment else st.segment) ++
        p.sign (SIGNATURE_DOMAIN ++ key ++ nonceBytes st.segmentCount lastSegment
          ++ p.plainHash (if lastSegment then padSegment st.segment
            else st.segment))).length = 65600 := by
    rw [List.length_append, hseg, p.sign_length]
    norm_num [SEGMENT_SIZE]
  obtain ⟨ct, tag, henc, hctlen, htaglen, _⟩ :=
    chacha_roundtrip_aux p key (nonceBytes st.segmentCount lastSegment) []
      ((if lastSegment then padSegment st.segment else st.segment) ++
        p.sign (SIGNATURE_DOMAIN ++ key ++ nonceBytes st.segmentCount lastSegment
          ++ p.plainHash (if lastSegment then padSegment st.segment
            else st.segment)))
      (by norm_num) (by rw [hseg2len]; norm_num)
  refine ⟨⟨ct ++ tag, nonceBytes st.segmentCount lastSegment⟩, ?_, ?_, rfl⟩
  · simp only [signcryptSegment]
    rw [henc]
  · simp only [List.length_append, hctlen, htaglen, hseg2len]

/-- `StreamState::write`: consumes `min(|buf|, capacity)` bytes; emits a
(non-final) frame exactly when that fills the segment. -/
theorem streamWrite_spec (p : Prims) (key : List Nat) (st : StreamState)
    (buf : List Nat) (hInv : st.segment.length < SEGMENT_SIZE) :
    ∃ consumed frameOpt st1,
      streamWrite p key st buf = .ok (consumed, frameOpt, st1) ∧
      consumed = min buf.length (SEGMENT_SIZE - st.segment.length) ∧
      st1.segment.length < SEGMENT_SIZE ∧
      st1.segment.length +
        (match frameOpt with | some _ => SEGMENT_SIZE | none => 0) =
        st.segment.length + consumed ∧
      st1.segmentCount = st.segmentCount +
        (match frameOpt with | some _ => 1 | none => 0) ∧
      (∀ f, frameOpt = some f → f.bytes.length = 65632 ∧
        f.nonce = nonceBytes st.segmentCount false) := by
  have htake :
      (buf.take (min buf.length (SEGMENT_SIZE - st.segment.length))).length =
        min buf.length (SEGMENT_SIZE - st.segment.length) := by
    rw [List.length_take]
    omega
  by_cases hfull : SEGMENT_SIZE -
      (st.segment ++
        buf.take (min buf.length (SEGMENT_SIZE - st.segment.length))).length = 0
  · have hsegfull :
        (st.segment ++
          buf.take (min buf.length (SEGMENT_SIZE - st.segment.length))).length =
          SEGMENT_SIZE := by
      rw [List.length_append, htake]
      rw [List.length_append, htake] at hfull
      omega
    obtain ⟨frame, hsc, hblen, hnonce⟩ :=
      signcryptSegment_spec p key
        ⟨st.segment ++
          buf.take (min buf.length (SEGMENT_SIZE - st.segment.length)),
          st.segmentCount⟩ false (by simpa using hsegfull)
    refine ⟨min buf.length (SEGMENT_SIZE - st.segment.length), some frame,
      ⟨[], st.segmentCount + 1⟩, ?_, rfl, ?_, ?_, ?_, ?_⟩
    · simp only [streamWrite]
      rw [if_pos hfull, hsc]
    · simp [SEGMENT_SIZE]
    · simp only [List.length_nil, Nat.zero_add]
      rw [List.length_append, htake] at hsegfull
      omega
    · rfl
    · intro f hf
      cases hf
      exact ⟨hblen, hnonce⟩
  · refine ⟨min buf.length (SEGMENT_SIZE - st.segment.length), none,
      ⟨st.segment ++
        buf.take (min buf.length (SEGMENT_SIZE - st.segment.length)),
        st.segmentCount⟩, ?_, rfl, ?_, ?_, ?_, ?_⟩
    · simp only [streamWrite]
      rw [if_neg hfull]
    · rw [List.length_append, htake] at hfull ⊢
      omega
    · simp only []
      rw [List.length_append, htake]
      omega
    · rfl
    · intro f hf
      cases hf

/-- Driving `StreamState::write` over one buffer: all frames emitted are
full non-final frames, counters stay in step, and bytes are conserved
between the segment buffer and the emitted frames. -/
theorem writeFullGo_spec (p : Prims) (key : List Nat) :
    ∀ (fuel : Nat) (st : StreamState) (buf : List Nat),
      st.segment.length < SEGMENT_SIZE → buf.length ≤ fuel →
      ∃ frames st1, writeFullGo p key fuel st buf = .ok (frames, st1) ∧
        st1.segment.length < SEGMENT_SIZE ∧
        st1.segment.length + frames.length * SEGMENT_SIZE =
          st.segment.length + buf.length ∧
        st1.segmentCount = st.segmentCount + frames.length ∧
        (∀ f ∈ frames, f.bytes.length = 65632) ∧
        (∀ f ∈ frames, ∃ c, c < st1.segmentCount ∧
          f.nonce = nonceBytes c false) := by
  intro fuel
  induction fuel with
  | zero =>
    intro st buf hInv hfuel
    cases buf with
    | nil =>
      exact ⟨[], st, rfl, hInv, by simp, by simp, by simp, by simp⟩
    | cons b bs => simp at hfuel
  | succ fuel ih =>
    intro st buf hInv hfuel
    cases buf with
    | nil =>
      exact ⟨[], st, rfl, hInv, by simp, by simp, by simp, by simp⟩
    | cons b bs =>
      obtain ⟨consumed, frameOpt, st1, hw, hcons, hInv1, hconserv, hcount,
        hframe⟩ := streamWrite_spec p key st (b :: bs) hInv
      have hc1 : 1 ≤ consumed := by
        rw [hcons, List.length_cons]
        omega
      have hdroplen : ((b :: bs).drop consumed).length ≤ fuel := by
        rw [List.length_drop]
        rw [List.length_cons] at hfuel ⊢
        omega
      obtain ⟨frames2, st2, hrec, hInv2, hconserv2, hcount2, hblen2,
        hnonce2⟩ := ih st1 ((b :: bs).drop consumed) hInv1 hdroplen
      have hclen : consumed ≤ (b :: bs).length := by
        rw [hcons]
        omega
      cases frameOpt with
      | none =>
        simp only [] at hconserv hcount
        refine ⟨frames2, st2, ?_, hInv2, ?_, ?_, hblen2, hnonce2⟩
        · simp only [writeFullGo, hw, hrec, Option.toList, List.nil_append]
        · rw [List.length_drop] at hconserv2
          omega
        · omega
      | some f =>
        simp only [] at hconserv hcount
        refine ⟨f :: frames2, st2, ?_, hInv2, ?_, ?_, ?_, ?_⟩
        · simp only [writeFullGo, hw, hrec, Option.toList, List.singleton_append]
        · rw [List.length_drop] at hconserv2
          have hdist : (f :: frames2).length * SEGMENT_SIZE =
              frames2.length * SEGMENT_SIZE + SEGMENT_SIZE := by
            rw [List.length_cons]
            ring
          rw [hdist]
          omega
        · rw [List.length_cons]
          omega
        · intro g hg
          rcases List.mem_cons.mp hg with hg | hg
          · rw [hg]
            exact (hframe f rfl).1
          · exact hblen2 g hg
        · intro g hg
          rcases List.mem_cons.mp hg with hg | hg
          · rw [hg]
            exact ⟨st.segmentCount, by omega, (hframe f rfl).2⟩
          · obtain ⟨c, hcl, hcn⟩ := hnonce2 g hg
            exact ⟨c, hcl, hcn⟩

/-- Feeding the payload views through the stream writer. -/
theorem feedViews_spec (p : Prims) (key : List Nat) :
    ∀ (views : List (List Nat)) (st : StreamState),
      st.segment.length < SEGMENT_SIZE →
      ∃ frames st1, feedViews p key st views = .ok (frames, st1) ∧
        st1.segment.length < SEGMENT_SIZE ∧
        st1.segment.length + frames.length * SEGMENT_SIZE =
          st.segment.length + viewsLen views ∧
        st1.segmentCount = st.segmentCount + frames.length ∧
        (∀ f ∈ frames, f.bytes.length = 65632) ∧
        (∀ f ∈ frames, ∃ c, c < st1.segmentCount ∧
          f.nonce = nonceBytes c false) := by
  intro views
  induction views with
  | nil =>
    intro st hInv
    exact ⟨[], st, rfl, hInv, by simp [viewsLen], by simp, by simp, by simp⟩
  | cons v rest ih =>
    intro st hInv
    obtain ⟨frames1, st1, hwf, hInv1, hconserv1, hcount1, hblen1, hnonce1⟩ :=
      writeFullGo_spec p key v.length st v hInv (Nat.le_refl _)
    obtain ⟨frames2, st2, hfv, hInv2, hconserv2, hcount2, hblen2, hnonce2⟩ :=
      ih st1 hInv1
    refine ⟨frames1 ++ frames2, st2, ?_, hInv2, ?_, ?_, ?_, ?_⟩
    · simp only [feedViews, writeFull, hwf, hfv]
    · rw [List.length_append]
      simp only [viewsLen, List.map_cons, List.sum_cons]
      have hv : viewsLen rest = (rest.map List.length).sum := rfl
      rw [hv] at hconserv2
      have hdist : (frames1.length + frames2.length) * SEGMENT_SIZE =
          frames1.length * SEGMENT_SIZE + frames2.length * SEGMENT_SIZE := by
        ring
      omega
    · rw [List.length_append]
      omega
    · intro f hf
      rcases List.mem_append.mp hf with hf | hf
      · exact hblen1 f hf
      · exact hblen2 f hf
    · intro f hf
      rcases List.mem_append.mp hf with hf | hf
      · obtain ⟨c, hcl, hcn⟩ := hnonce1 f hf
        exact ⟨c, by omega, hcn⟩
      · exact hnonce2 f hf

/-- The frame sequence of a whole archive payload run: `⌊L/65536⌋ + 1`
frames (`L` the payload length), each 65632 bytes, the last-segment flag
clear on all but the final frame and set on the final frame. -/
theorem archiveRun_frames (p : Prims) (key : List Nat)
    (views : List (List Nat))
    (hbound : viewsLen views < 2 ^ 63 * SEGMENT_SIZE) :
    ∃ frames, archiveRun p key views = .ok frames ∧
      frames.length = viewsLen views / 65536 + 1 ∧
      (∀ f ∈ frames, f.bytes.length = 65632) ∧
      (∀ f ∈ frames.dropLast, nonceLastFlag f.nonce = false) ∧
      (∃ fl, frames.getLast? = some fl ∧ nonceLastFlag fl.nonce = true) := by
  obtain ⟨frames0, st1, hfv, hInv1, hconserv, hcount, hblen, hnonce⟩ :=
    feedViews_spec p key views ⟨[], 0⟩ (by simp [SEGMENT_SIZE])
  simp only [List.length_nil, Nat.zero_add] at hconserv hcount
  have hS : SEGMENT_SIZE = 65536 := rfl
  have hn : frames0.length = viewsLen views / 65536 := by
    rw [hS] at hconserv hInv1
    omega
  have hcountlt : st1.segmentCount < 2 ^ 63 := by
    rw [hS] at hbound hconserv hInv1
    omega
  obtain ⟨fl, hsc, hfllen, hflnonce⟩ :=
    signcryptSegment_spec p key st1 true
      (by
        simp only [if_pos rfl]
        exact padSegment_length st1.segment hInv1)
  refine ⟨frames0 ++ [fl], ?_, ?_, ?_, ?_, ?_⟩
  · simp only [archiveRun, hfv, hsc]
  · rw [List.length_append, hn]
    rfl
  · intro f hf
    rcases List.mem_append.mp hf with hf | hf
    · exact hblen f hf
    · rw [List.mem_singleton.mp hf]
      exact hfllen
  · rw [List.dropLast_concat]
    intro f hf
    obtain ⟨c, hcl, hcn⟩ := hnonce f hf
    rw [hcn]
    exact nonceLastFlag_false c (by omega)
  · refine ⟨fl, ?_, ?_⟩
    · rw [List.getLast?_concat]
    · rw [hflnonce]
      exact nonceLastFlag_true st1.segmentCount

/-- C2 (amended): for every payload written in any split through the
archive stream writer and terminated by `finish()`, the emitted frame
sequence has exactly `⌊L/65536⌋ + 1` frames (which equals `⌈L/65536⌉`
except when `L` is a positive multiple of 65536, and equals `1` when
`L = 0`), each frame exactly `65632` bytes, with the last-segment nonce
flag clear on every frame but the final one and set on the final one.
(The counter bound reflects the code's `segment_count < 2^63`
invariant.) -/
theorem archiveRun_framing (p : Prims) (key : List Nat)
    (views : List (List Nat))
    (hbound : viewsLen views < 2 ^ 63 * SEGMENT_SIZE) :
    ∃ frames, archiveRun p key views = .ok frames ∧
      frames.length = viewsLen views / 65536 + 1 ∧
      (∀ f ∈ frames, f.bytes.length = 65632) ∧
      (∀ f ∈ frames.dropLast, nonceLastFlag f.nonce = false) ∧
      (∃ fl, frames.getLast? = some fl ∧ nonceLastFlag fl.nonce = true) :=
  archiveRun_frames p key views hbound

/-- C2 witness: a 3-byte payload in a single write yields one frame. -/
theorem archiveRun_framing_witness :
    viewsLen [[1, 2, 3]] < 2 ^ 63 * SEGMENT_SIZE ∧
    (∃ frames,
      archiveRun trivPrims (List.replicate 32 0) [[1, 2, 3]] = .ok frames ∧
      frames.length = viewsLen [[1, 2, 3]] / 65536 + 1 ∧
      (∀ f ∈ frames, f.bytes.length = 65632) ∧
      (∀ f ∈ frames.dropLast, nonceLastFlag f.nonce = false) ∧
      (∃ fl, frames.getLast? = some fl ∧ nonceLastFlag fl.nonce = true)) :=
  ⟨by
    simp only [viewsLen, List.map_cons, List.map_nil, List.sum_cons,
      List.sum_nil, List.length_cons, List.length_nil]
    norm_num [SEGMENT_SIZE],
    archiveRun_framing trivPrims (List.replicate 32 0) [[1, 2, 3]]
      (by
        simp only [viewsLen, List.map_cons, List.map_nil, List.sum_cons,
          List.sum_nil, List.length_cons, List.length_nil]
        norm_num [SEGMENT_SIZE])⟩

/-- C2 counterexample: a payload of exactly `L = 65536` bytes produces two
frames (the eagerly sealed full segment plus the fully padded final
segment), not the `⌈L/65536⌉ = 1` frame the claim states. -/
theorem archiveRun_framecount_cex :
    framesCount (archiveRun trivPrims (List.replicate 32 0)
      [List.replicate 65536 0]) = 2 ∧
    (2 : Nat) ≠ 65536 / 65536 := by
  refine ⟨?_, by decide⟩
  obtain ⟨frames, hrun, hlen, _, _, _⟩ :=
    archiveRun_frames trivPrims (List.replicate 32 0) [List.replicate 65536 0]
      (by
        simp only [viewsLen, List.map_cons, List.map_nil, List.sum_cons,
          List.sum_nil, List.length_replicate]
        norm_num [SEGMENT_SIZE])
  have hlen2 : frames.length = 2 := by
    rw [hlen]
    simp only [viewsLen, List.map_cons, List.map_nil, List.sum_cons,
      List.sum_nil, List.length_replicate]
    norm_num
  rw [hrun]
  show frames.length = 2
  exact hlen2

/-!
### §4.B/§4.C  Chunker claims (C1, C6)

The loop lemmas track, for each of the three phases of
`ChunkerState::update`, how many bytes are consumed and how the running
chunk size evolves: a `none` result consumes the whole buffer and keeps the
size below `max_size`; a `some j` result resets the size, consumes `j - i`
bytes, and (when it consumed at least one byte in the phase chain) cuts at
a total size within `[.., max_size]`.
-/

theorem relaxedLoop_none (cfg : ChunkerConfig) (g : GearPrims) :
    ∀ (buf : List Nat) (i : Nat) (st st' : ChunkerState),
      relaxedLoop cfg g i st buf = (st', none) →
      st'.size = st.size + buf.length ∧ st'.size < cfg.maxSize := by
  intro buf
  induction buf with
  | nil =>
    intro i st st' h
    simp only [relaxedLoop] at h
    split_ifs at h with h1
    · simp only [Prod.mk.injEq] at h
      rw [← h.1]
      simpa using h1
    · simp at h
  | cons b rest ih =>
    intro i st st' h
    simp only [relaxedLoop] at h
    split_ifs at h with h1 h2
    · simp at h
    · obtain ⟨hsz, hlt⟩ := ih (i + 1) ⟨gearUpdate g st.gear b, st.size + 1⟩ st' h
      refine ⟨?_, hlt⟩
      rw [hsz]
      simp only [List.length_cons]
      omega
    · simp at h

theorem relaxedLoop_some (cfg : ChunkerConfig) (g : GearPrims) :
    ∀ (buf : List Nat) (i : Nat) (st st' : ChunkerState) (j : Nat),
      relaxedLoop cfg g i st buf = (st', some j) →
      st'.size = 0 ∧ i ≤ j ∧ j - i ≤ buf.length ∧
      (i < j → st.size + (j - i) ≤ cfg.maxSize ∧ st.size < cfg.maxSize) ∧
      (i = j → cfg.maxSize ≤ st.size) := by
  intro buf
  induction buf with
  | nil =>
    intro i st st' j h
    simp only [relaxedLoop] at h
    split_ifs at h with h1
    · simp at h
    · simp only [Prod.mk.injEq, Option.some.injEq] at h
      obtain ⟨hst, hj⟩ := h
      subst hj
      refine ⟨by rw [← hst], Nat.le_refl _, by simp, by omega, fun _ => by omega⟩
  | cons b rest ih =>
    intro i st st' j h
    simp only [relaxedLoop] at h
    split_ifs at h with h1 h2
    · simp only [Prod.mk.injEq, Option.some.injEq] at h
      obtain ⟨hst, hj⟩ := h
      subst hj
      refine ⟨by rw [← hst], by omega, ?_, ?_, by omega⟩
      · simp only [List.length_cons]
        omega
      · intro _
        omega
    · obtain ⟨hsz, hle, hlen, hlt, heq⟩ :=
        ih (i + 1) ⟨gearUpdate g st.gear b, st.size + 1⟩ st' j h
      refine ⟨hsz, by omega, ?_, ?_, ?_⟩
      · simp only [List.length_cons]
        omega
      · intro _
        rcases eq_or_lt_of_le hle with hj | hj
        · refine ⟨?_, h1⟩
          rw [← hj]
          omega
        · obtain ⟨hb, _⟩ := hlt hj
          refine ⟨?_, h1⟩
          simp only [ChunkerState.size] at hb
          omega
      · intro hij
        omega
    · simp only [Prod.mk.injEq, Option.some.injEq] at h
      obtain ⟨hst, hj⟩ := h
      subst hj
      refine ⟨by rw [← hst], Nat.le_refl _, by simp, by omega, fun _ => by omega⟩

theorem strictLoop_none (cfg : ChunkerConfig) (g : GearPrims)
    (havgmax : cfg.avgSize ≤ cfg.maxSize) :
    ∀ (buf : List Nat) (i : Nat) (st st' : ChunkerState),
      strictLoop cfg g i st buf = (st', none) →
      st'.size = st.size + buf.length ∧ st'.size < cfg.maxSize := by
  intro buf
  induction buf with
  | nil =>
    intro i st st' h
    simp only [strictLoop] at h
    split_ifs at h with h1
    · simp only [Prod.mk.injEq] at h
      rw [← h.1]
      constructor
      · simp
      · simpa using lt_of_lt_of_le h1 havgmax
    · exact relaxedLoop_none cfg g [] i st st' h
  | cons b rest ih =>
    intro i st st' h
    simp only [strictLoop] at h
    split_ifs at h with h1 h2
    · simp at h
    · obtain ⟨hsz, hlt⟩ := ih (i + 1) ⟨gearUpdate g st.gear b, st.size + 1⟩ st' h
      refine ⟨?_, hlt⟩
      rw [hsz]
      simp only [List.length_cons]
      omega
    · exact relaxedLoop_none cfg g (b :: rest) i st st' h

theorem strictLoop_some (cfg : ChunkerConfig) (g : GearPrims)
    (havgmax : cfg.avgSize ≤ cfg.maxSize) :
    ∀ (buf : List Nat) (i : Nat) (st st' : ChunkerState) (j : Nat),
      strictLoop cfg g i st buf = (st', some j) →
      st'.size = 0 ∧ i ≤ j ∧ j - i ≤ buf.length ∧
      (i < j → st.size + (j - i) ≤ cfg.maxSize ∧ st.size < cfg.maxSize) ∧
      (i = j → cfg.maxSize ≤ st.size) := by
  intro buf
  induction buf with
  | nil =>
    intro i st st' j h
    simp only [strictLoop] at h
    split_ifs at h with h1
    · simp at h
    · exact relaxedLoop_some cfg g [] i st st' j h
  | cons b rest ih =>
    intro i st st' j h
    simp only [strictLoop] at h
    split_ifs at h with h1 h2
    · simp only [Prod.mk.injEq, Option.some.injEq] at h
      obtain ⟨hst, hj⟩ := h
      subst hj
      have hsa : st.size + 1 ≤ cfg.maxSize := by omega
      refine ⟨by rw [← hst], by omega, ?_, ?_, by omega⟩
      · simp only [List.length_cons]
        omega
      · intro _
        exact ⟨by omega, by omega⟩
    · obtain ⟨hsz, hle, hlen, hlt, heq⟩ :=
        ih (i + 1) ⟨gearUpdate g st.gear b, st.size + 1⟩ st' j h
      have hsmax : st.size < cfg.maxSize := by omega
      refine ⟨hsz, by omega, ?_, ?_, ?_⟩
      · simp only [List.length_cons]
        omega
      · intro _
        rcases eq_or_lt_of_le hle with hj | hj
        · refine ⟨?_, hsmax⟩
          rw [← hj]
          omega
        · obtain ⟨hb, _⟩ := hlt hj
          refine ⟨?_, hsmax⟩
          simp only [ChunkerState.size] at hb
          omega
      · intro hij
        omega
    · exact relaxedLoop_some cfg g (b :: rest) i st st' j h

theorem warmupLoop_none (cfg : ChunkerConfig) (g : GearPrims)
    (hminavg : cfg.minSize ≤ cfg.avgSize) (havgmax : cfg.avgSize ≤ cfg.maxSize)
    (hmin1 : 1 ≤ cfg.minSize) :
    ∀ (buf : List Nat) (i : Nat) (st st' : ChunkerState),
      warmupLoop cfg g i st buf = (st', none) →
      st'.size = st.size + buf.length ∧ st'.size < cfg.maxSize := by
  intro buf
  induction buf with
  | nil =>
    intro i st st' h
    simp only [warmupLoop] at h
    split_ifs at h with h1
    · simp only [Prod.mk.injEq] at h
      rw [← h.1]
      refine ⟨by simp, by omega⟩
    · exact strictLoop_none cfg g havgmax [] i st st' h
  | cons b rest ih =>
    intro i st st' h
    simp only [warmupLoop] at h
    split_ifs at h with h1
    · obtain ⟨hsz, hlt⟩ := ih (i + 1) ⟨gearUpdate g st.gear b, st.size + 1⟩ st' h
      refine ⟨?_, hlt⟩
      rw [hsz]
      simp only [List.length_cons]
      omega
    · exact strictLoop_none cfg g havgmax (b :: rest) i st st' h

theorem warmupLoop_some (cfg : ChunkerConfig) (g : GearPrims)
    (hminavg : cfg.minSize ≤ cfg.avgSize) (havgmax : cfg.avgSize ≤ cfg.maxSize)
    (hmin1 : 1 ≤ cfg.minSize) :
    ∀ (buf : List Nat) (i : Nat) (st st' : ChunkerState) (j : Nat),
      warmupLoop cfg g i st buf = (st', some j) →
      st'.size = 0 ∧ i ≤ j ∧ j - i ≤ buf.length ∧
      (i < j → st.size + (j - i) ≤ cfg.maxSize ∧ st.size < cfg.maxSize) ∧
      (i = j → cfg.maxSize ≤ st.size) := by
  intro buf
  induction buf with
  | nil =>
    intro i st st' j h
    simp only [warmupLoop] at h
    split_ifs at h with h1
    · simp at h
    · exact strictLoop_some cfg g havgmax [] i st st' j h
  | cons b rest ih =>
    intro i st st' j h
    simp only [warmupLoop] at h
    split_ifs at h with h1
    · obtain ⟨hsz, hle, hlen, hlt, heq⟩ :=
        ih (i + 1) ⟨gearUpdate g st.gear b, st.size + 1⟩ st' j h
      have hsmax : st.size < cfg.maxSize := by omega
      refine ⟨hsz, by omega, ?_, ?_, ?_⟩
      · simp only [List.length_cons]
        omega
      · intro _
        rcases eq_or_lt_of_le hle with hj | hj
        · refine ⟨?_, hsmax⟩
          rw [← hj]
          omega
        · obtain ⟨hb, _⟩ := hlt hj
          refine ⟨?_, hsmax⟩
          simp only [ChunkerState.size] at hb
          omega
      · intro hij
        omega
    · exact strictLoop_some cfg g havgmax (b :: rest) i st st' j h

theorem strictLoop_min (cfg : ChunkerConfig) (g : GearPrims)
    (hminavg : cfg.minSize ≤ cfg.avgSize)
    (havgmax : cfg.avgSize ≤ cfg.maxSize) :
    ∀ (buf : List Nat) (i : Nat) (st st' : ChunkerState) (j : Nat),
      strictLoop cfg g i st buf = (st', some j) →
      cfg.minSize - 1 ≤ st.size →
      cfg.minSize ≤ st.size + (j - i) := by
  intro buf
  induction buf with
  | nil =>
    intro i st st' j h hentry
    simp only [strictLoop] at h
    split_ifs at h with h1
    · simp at h
    · obtain ⟨_, hle, _, _, _⟩ := relaxedLoop_some cfg g [] i st st' j h
      omega
  | cons b rest ih =>
    intro i st st' j h hentry
    simp only [strictLoop] at h
    split_ifs at h with h1 h2
    · simp only [Prod.mk.injEq, Option.some.injEq] at h
      obtain ⟨_, hj⟩ := h
      subst hj
      omega
    · have hrec := ih (i + 1) ⟨gearUpdate g st.gear b, st.size + 1⟩ st' j h
        (by simp only [ChunkerState.size]; omega)
      obtain ⟨_, hle, _, _, _⟩ :=
        strictLoop_some cfg g havgmax rest (i + 1)
          ⟨gearUpdate g st.gear b, st.size + 1⟩ st' j h
      simp only [ChunkerState.size] at hrec
      omega
    · obtain ⟨_, hle, _, _, _⟩ := relaxedLoop_some cfg g (b :: rest) i st st' j h
      omega

theorem warmupLoop_min (cfg : ChunkerConfig) (g : GearPrims)
    (hminavg : cfg.minSize ≤ cfg.avgSize)
    (havgmax : cfg.avgSize ≤ cfg.maxSize) :
    ∀ (buf : List Nat) (i : Nat) (st st' : ChunkerState) (j : Nat),
      warmupLoop cfg g i st buf = (st', some j) →
      cfg.minSize ≤ st.size + (j - i) := by
  intro buf
  induction buf with
  | nil =>
    intro i st st' j h
    simp only [warmupLoop] at h
    split_ifs at h with h1
    · simp at h
    · exact strictLoop_min cfg g hminavg havgmax [] i st st' j h (by omega)
  | cons b rest ih =>
    intro i st st' j h
    simp only [warmupLoop] at h
    split_ifs at h with h1
    · have hrec := ih (i + 1) ⟨gearUpdate g st.gear b, st.size + 1⟩ st' j h
      obtain ⟨_, hle, _, _, _⟩ :=
        warmupLoop_some cfg g hminavg havgmax (by omega) rest (i + 1)
          ⟨gearUpdate g st.gear b, st.size + 1⟩ st' j h
      simp only [ChunkerState.size] at hrec
      omega
    · exact strictLoop_min cfg g hminavg havgmax (b :: rest) i st st' j h
        (by omega)

/-- `ChunkerState::update` returning `none`: the whole buffer is consumed
into the running chunk, and the running size stays below `max_size`. -/
theorem chunkerUpdate_none (cfg : ChunkerConfig) (g : GearPrims)
    (hmin64 : 64 ≤ cfg.minSize) (hminavg : cfg.minSize ≤ cfg.avgSize)
    (havgmax : cfg.avgSize ≤ cfg.maxSize)
    (st st' : ChunkerState) (buf : List Nat)
    (hInv : st.size < cfg.maxSize)
    (h : chunkerUpdate cfg g st buf = (st', none)) :
    st'.size = st.size + buf.length ∧ st'.size < cfg.maxSize := by
  simp only [chunkerUpdate] at h
  split_ifs at h with h1 h2
  · simp only [Prod.mk.injEq] at h
    rw [← h.1]
    refine ⟨by simp, ?_⟩
    show st.size + buf.length < cfg.maxSize
    omega
  · obtain ⟨hsz, hlt⟩ :=
      warmupLoop_none cfg g hminavg havgmax (by omega)
        (buf.drop (cfg.minSize - 64 - st.size)) (cfg.minSize - 64 - st.size)
        ⟨st.gear, st.size + (cfg.minSize - 64 - st.size)⟩ st' h
    refine ⟨?_, hlt⟩
    rw [hsz]
    simp only [ChunkerState.size, List.length_drop]
    omega
  · exact warmupLoop_none cfg g hminavg havgmax (by omega) buf 0 st st' h

/-- `ChunkerState::update` returning `some j` (a boundary): at least one
byte was consumed, at most the buffer, the running size resets, and the
finished chunk's total size `st.size + j` lands in `[min_size, max_size]`. -/
theorem chunkerUpdate_some (cfg : ChunkerConfig) (g : GearPrims)
    (hmin64 : 64 ≤ cfg.minSize) (hminavg : cfg.minSize ≤ cfg.avgSize)
    (havgmax : cfg.avgSize ≤ cfg.maxSize)
    (st st' : ChunkerState) (buf : List Nat) (j : Nat)
    (hInv : st.size < cfg.maxSize)
    (h : chunkerUpdate cfg g st buf = (st', some j)) :
    st'.size = 0 ∧ 1 ≤ j ∧ j ≤ buf.length ∧
    cfg.minSize ≤ st.size + j ∧ st.size + j ≤ cfg.maxSize := by
  simp only [chunkerUpdate] at h
  split_ifs at h with h1 h2
  · simp at h
  · obtain ⟨hsz, hle, hlen, hlt, heq⟩ :=
      warmupLoop_some cfg g hminavg havgmax (by omega)
        (buf.drop (cfg.minSize - 64 - st.size)) (cfg.minSize - 64 - st.size)
        ⟨st.gear, st.size + (cfg.minSize - 64 - st.size)⟩ st' j h
    have hmn :=
      warmupLoop_min cfg g hminavg havgmax
        (buf.drop (cfg.minSize - 64 - st.size)) (cfg.minSize - 64 - st.size)
        ⟨st.gear, st.size + (cfg.minSize - 64 - st.size)⟩ st' j h
    simp only [ChunkerState.size] at hlt heq hmn
    have hnotforce : ¬ (cfg.minSize - 64 - st.size = j) := by
      intro hij
      have := heq hij
      omega
    have hij : cfg.minSize - 64 - st.size < j := by omega
    obtain ⟨hb, _⟩ := hlt hij
    rw [List.length_drop] at hlen
    refine ⟨hsz, by omega, by omega, by omega, by omega⟩
  · obtain ⟨hsz, hle, hlen, hlt, heq⟩ :=
      warmupLoop_some cfg g hminavg havgmax (by omega) buf 0 st st' j h
    have hmn :=
      warmupLoop_min cfg g hminavg havgmax buf 0 st st' j h
    have hij : 0 < j := by
      rcases Nat.eq_zero_or_pos j with hj | hj
      · exact absurd (heq hj.symm) (by omega)
      · exact hj
    obtain ⟨hb, _⟩ := hlt hij
    refine ⟨hsz, by omega, by omega, by omega, by omega⟩

theorem chunkRunGo_nil (cfg : ChunkerConfig) (g : GearPrims) (fuel : Nat)
    (st : ChunkerState) (acc : List Nat) :
    chunkRunGo cfg g fuel st acc [] = if acc.isEmpty then [] else [acc] := by
  cases fuel <;> rfl

/-- Main driver invariant: with the running chunk accumulator in step with
the chunker's size counter, the emitted chunks concatenate to the remaining
input, every chunk is a nonempty chunk of at most `max_size` bytes, and
every chunk except possibly the last is at least `min_size` bytes. -/
theorem chunkRunGo_spec (cfg : ChunkerConfig) (g : GearPrims)
    (hmin64 : 64 ≤ cfg.minSize) (hminavg : cfg.minSize ≤ cfg.avgSize)
    (havgmax : cfg.avgSize ≤ cfg.maxSize) :
    ∀ (fuel : Nat) (views : List (List Nat)) (st : ChunkerState)
      (acc : List Nat),
      st.size < cfg.maxSize → acc.length = st.size →
      viewsLen views + views.length ≤ fuel →
      (chunkRunGo cfg g fuel st acc views).flatten = acc ++ views.flatten ∧
      (∀ c ∈ chunkRunGo cfg g fuel st acc views,
        1 ≤ c.length ∧ c.length ≤ cfg.maxSize) ∧
      (∀ c ∈ (chunkRunGo cfg g fuel st acc views).dropLast,
        cfg.minSize ≤ c.length) := by
  intro fuel
  induction fuel with
  | zero =>
    intro views st acc hInv hacc hfuel
    cases views with
    | nil =>
      rw [chunkRunGo_nil]
      cases acc with
      | nil => simp
      | cons a as =>
        simp only [List.isEmpty_cons, Bool.false_eq_true, if_false]
        refine ⟨by simp, ?_, by simp⟩
        intro c hc
        rw [List.mem_singleton.mp hc]
        rw [List.length_cons] at hacc ⊢
        omega
    | cons v rest =>
      simp only [viewsLen, List.map_cons, List.sum_cons, List.length_cons]
        at hfuel
      omega
  | succ fuel ih =>
    intro views st acc hInv hacc hfuel
    cases views with
    | nil =>
      rw [chunkRunGo_nil]
      cases acc with
      | nil => simp
      | cons a as =>
        simp only [List.isEmpty_cons, Bool.false_eq_true, if_false]
        refine ⟨by simp, ?_, by simp⟩
        intro c hc
        rw [List.mem_singleton.mp hc]
        rw [List.length_cons] at hacc ⊢
        omega
    | cons v rest =>
      rcases hupd : chunkerUpdate cfg g st v with ⟨st1, opt⟩
      cases opt with
      | none =>
        obtain ⟨hsz, hlt⟩ :=
          chunkerUpdate_none cfg g hmin64 hminavg havgmax st st1 v hInv hupd
        have hacc1 : (acc ++ v).length = st1.size := by
          rw [List.length_append, hacc, hsz]
        have hfuel1 : viewsLen rest + rest.length ≤ fuel := by
          simp only [viewsLen, List.map_cons, List.sum_cons, List.length_cons]
            at hfuel
          simp only [viewsLen]
          omega
        obtain ⟨hflat, hmem, hdrop⟩ := ih rest st1 (acc ++ v) hlt hacc1 hfuel1
        have hcomp : chunkRunGo cfg g (fuel + 1) st acc (v :: rest) =
            chunkRunGo cfg g fuel st1 (acc ++ v) rest := by
          show (match chunkerUpdate cfg g st v with
            | (st1, none) => chunkRunGo cfg g fuel st1 (acc ++ v) rest
            | (st1, some consumed) =>
              (acc ++ v.take consumed) ::
                chunkRunGo cfg g fuel st1 [] (v.drop consumed :: rest)) =
            chunkRunGo cfg g fuel st1 (acc ++ v) rest
          rw [hupd]
        rw [hcomp]
        refine ⟨?_, hmem, hdrop⟩
        rw [hflat]
        simp [List.append_assoc]
      | some j =>
        obtain ⟨hsz, hj1, hjlen, hminb, hmaxb⟩ :=
          chunkerUpdate_some cfg g hmin64 hminavg havgmax st st1 v j hInv hupd
        have hInv1 : st1.size < cfg.maxSize := by omega
        have hfuel1 : viewsLen (v.drop j :: rest) + (v.drop j :: rest).length
            ≤ fuel := by
          simp only [viewsLen, List.map_cons, List.sum_cons, List.length_cons,
            List.length_drop] at hfuel ⊢
          omega
        obtain ⟨hflat, hmem, hdrop⟩ :=
          ih (v.drop j :: rest) st1 [] hInv1 (by simp [hsz]) hfuel1
        have hcomp : chunkRunGo cfg g (fuel + 1) st acc (v :: rest) =
            (acc ++ v.take j) ::
              chunkRunGo cfg g fuel st1 [] (v.drop j :: rest) := by
          show (match chunkerUpdate cfg g st v with
            | (st1, none) => chunkRunGo cfg g fuel st1 (acc ++ v) rest
            | (st1, some consumed) =>
              (acc ++ v.take consumed) ::
                chunkRunGo cfg g fuel st1 [] (v.drop consumed :: rest)) =
            (acc ++ v.take j) ::
              chunkRunGo cfg g fuel st1 [] (v.drop j :: rest)
          rw [hupd]
        rw [hcomp]
        have hclen : (acc ++ v.take j).length = st.size + j := by
          rw [List.length_append, hacc, List.length_take]
          omega
        refine ⟨?_, ?_, ?_⟩
        · have hfuse : v.take j ++ (v.drop j ++ rest.flatten) =
              v ++ rest.flatten := by
            rw [← List.append_assoc, List.take_append_drop]
          simp only [List.flatten_cons, hflat, List.nil_append,
            List.append_assoc, hfuse]
        · intro c hc
          rcases List.mem_cons.mp hc with hc | hc
          · rw [hc, hclen]
            omega
          · exact hmem c hc
        · cases hrec0 : chunkRunGo cfg g fuel st1 [] (v.drop j :: rest) with
          | nil => simp
          | cons r rs =>
            rw [List.dropLast_cons₂]
            intro c hc
            rcases List.mem_cons.mp hc with hc | hc
            · rw [hc, hclen]
              omega
            · rw [hrec0] at hdrop
              exact hdrop c hc

/-- C1: the chunks the streaming chunker emits concatenate to exactly the
input, regardless of how the input is split into fill views, for every
valid configuration. -/
theorem chunker_reconstruct (g : GearPrims)
    (minSize avgSize maxSize normalizationBits : Nat)
    (hmin64 : 64 ≤ minSize) (hpow : ∃ k, avgSize = 2 ^ k)
    (_hnorm : normalizationBits < ilog2 avgSize)
    (hminavg : minSize ≤ avgSize) (havgmax : avgSize ≤ maxSize)
    (views : List (List Nat)) :
    (chunkRun (ChunkerConfig.new minSize avgSize maxSize normalizationBits) g
      views).flatten = views.flatten := by
  obtain ⟨hflat, _, _⟩ :=
    chunkRunGo_spec (ChunkerConfig.new minSize avgSize maxSize normalizationBits)
      g hmin64 hminavg havgmax (viewsLen views + views.length + 1) views
      ⟨0, 0⟩ [] (by show (0 : Nat) < maxSize; omega) rfl (by omega)
  simpa using hflat

/-- C1 witness: a two-view input with a minimal valid configuration. -/
theorem chunker_reconstruct_witness :
    64 ≤ 64 ∧ (∃ k, (64 : Nat) = 2 ^ k) ∧ 0 < ilog2 64 ∧ 64 ≤ 64 ∧
      (64 : Nat) ≤ 128 ∧
    (chunkRun (ChunkerConfig.new 64 64 128 0) trivGear
      [[1, 2], [3]]).flatten = ([[1, 2], [3]] : List (List Nat)).flatten :=
  ⟨Nat.le_refl _, ⟨6, by decide⟩, by decide, Nat.le_refl _, by decide,
    chunker_reconstruct trivGear 64 64 128 0 (Nat.le_refl _) ⟨6, by decide⟩
      (by decide) (Nat.le_refl _) (by decide) [[1, 2], [3]]⟩

/-- C6: every chunk except the final one has length in
`[min_size, max_size]`, and the final chunk has length in `[1, max_size]`,
for every valid configuration and any split of the input into fill
views. -/
theorem chunker_size_bounds (g : GearPrims)
    (minSize avgSize maxSize normalizationBits : Nat)
    (hmin64 : 64 ≤ minSize) (hpow : ∃ k, avgSize = 2 ^ k)
    (_hnorm : normalizationBits < ilog2 avgSize)
    (hminavg : minSize ≤ avgSize) (havgmax : avgSize ≤ maxSize)
    (views : List (List Nat)) :
    (∀ c ∈ (chunkRun (ChunkerConfig.new minSize avgSize maxSize
        normalizationBits) g views).dropLast,
      minSize ≤ c.length ∧ c.length ≤ maxSize) ∧
    (∀ c, (chunkRun (ChunkerConfig.new minSize avgSize maxSize
        normalizationBits) g views).getLast? = some c →
      1 ≤ c.length ∧ c.length ≤ maxSize) := by
  obtain ⟨_, hmem, hdrop⟩ :=
    chunkRunGo_spec (ChunkerConfig.new minSize avgSize maxSize normalizationBits)
      g hmin64 hminavg havgmax (viewsLen views + views.length + 1) views
      ⟨0, 0⟩ [] (by show (0 : Nat) < maxSize; omega) rfl (by omega)
  constructor
  · intro c hc
    refine ⟨hdrop c hc, ?_⟩
    exact (hmem c (List.dropLast_sublist _ |>.mem hc)).2
  · intro c hc
    exact hmem c (List.mem_of_getLast?_eq_some hc)

/-- C6 witness: the same concrete configuration and input as C1's. -/
theorem chunker_size_bounds_witness :
    64 ≤ 64 ∧ (∃ k, (64 : Nat) = 2 ^ k) ∧ 0 < ilog2 64 ∧ 64 ≤ 64 ∧
      (64 : Nat) ≤ 128 ∧
    ((∀ c ∈ (chunkRun (ChunkerConfig.new 64 64 128 0) trivGear
        [[1, 2], [3]]).dropLast, 64 ≤ c.length ∧ c.length ≤ 128) ∧
      (∀ c, (chunkRun (ChunkerConfig.new 64 64 128 0) trivGear
        [[1, 2], [3]]).getLast? = some c →
        1 ≤ c.length ∧ c.length ≤ 128)) :=
  ⟨Nat.le_refl _, ⟨6, by decide⟩, by decide, Nat.le_refl _, by decide,
    chunker_size_bounds trivGear 64 64 128 0 (Nat.le_refl _) ⟨6, by decide⟩
      (by decide) (Nat.le_refl _) (by decide) [[1, 2], [3]]⟩

end Bakup
